import Mathlib

/-!
# kvd: the replicated key-value state machine, its command codec, the join loop
and the configuration check

A shallow embedding of `managers/key-value-manager.go`, `cmd/server/main.go`
(`JoinCluster`) and `config/main.go` (`ParseConfig`), followed by theorems about
them.

Conventions of the embedding.

* A Go `string` as a caller passes it to `Set`, `Delete` or `Get` is a
  `ByteString`, any sequence of bytes.  A string that `encoding/json` decoded is
  well-formed UTF-8 and is a `GoString`, a list of Unicode scalar values; `utf8`
  gives its bytes.  Every key and value that reaches the store through `Apply`
  or `Restore` was decoded, so the store holds `GoString`s.  JSON texts
  (`[]byte`) are lists of characters as well.
* `map[string]string` is a `GoMap`: the entries in strictly increasing key order.
  Key order on well-formed UTF-8 is the order `encoding/json` sorts map keys by
  when it marshals.  The field `values` of the manager is an `Option GoMap`,
  `none` being the nil map.
* `encoding/json` is a library, not part of the repository.  The part of it the
  program exercises is embedded from its documented behaviour: the escaping of
  strings in `Marshal`, the syntax check that precedes every `Unmarshal`, and the
  storing of a JSON value into a `map[string]string` or into a struct with string
  fields.
* `log.Fatalf` ends the process; it is an outcome of its own.
-/

namespace Kvd

/-! ## Strings and maps -/

/-- A Go string holding well-formed UTF-8 text. -/
abbrev GoString := List Char

/-- A byte. -/
abbrev Byte := Fin 256

/-- A Go string as it is: any sequence of bytes, well-formed UTF-8 or not. -/
abbrev ByteString := List Byte

/-- The byte with the value `n`, for `n` below 256. -/
def byte (n : Nat) : Byte := ⟨n % 256, Nat.mod_lt n (by decide)⟩

/-- The UTF-8 encoding of one character: one to four bytes. -/
def utf8Char (c : Char) : ByteString :=
  if c.toNat < 0x80 then [byte c.toNat]
  else if c.toNat < 0x800 then [byte (0xC0 + c.toNat / 64), byte (0x80 + c.toNat % 64)]
  else if c.toNat < 0x10000 then
    [byte (0xE0 + c.toNat / 4096), byte (0x80 + c.toNat / 64 % 64), byte (0x80 + c.toNat % 64)]
  else
    [byte (0xF0 + c.toNat / 262144), byte (0x80 + c.toNat / 4096 % 64),
      byte (0x80 + c.toNat / 64 % 64), byte (0x80 + c.toNat % 64)]

/-- The bytes of a well-formed string. -/
def utf8 : GoString → ByteString
  | [] => []
  | c :: cs => utf8Char c ++ utf8 cs

/-- A Go string is well-formed UTF-8: it is the encoding of a sequence of Unicode
scalar values. -/
def WellFormed (s : ByteString) : Prop := ∃ t : GoString, utf8 t = s

/-- A continuation byte, `0x80` to `0xBF`. -/
def isCont (b : Byte) : Bool := decide (0x80 ≤ b.val ∧ b.val < 0xC0)

/-- Go: `utf8.DecodeRuneInString`: the character at the head of a string and the
number of bytes it takes, or `none` where the library returns `RuneError` with
width 1: the head is not the start of a well-formed encoding (a stray
continuation byte, an overlong form, a surrogate, a value above U+10FFFF, or an
encoding cut short). -/
def decodeRune : ByteString → Option (Char × Nat)
  | [] => none
  | b0 :: rest =>
    if b0.val < 0x80 then some (Char.ofNat b0.val, 1)
    else if b0.val < 0xC2 then none
    else if b0.val < 0xE0 then
      match rest with
      | b1 :: _ =>
        if isCont b1 then some (Char.ofNat ((b0.val - 0xC0) * 64 + (b1.val - 0x80)), 2) else none
      | _ => none
    else if b0.val < 0xF0 then
      match rest with
      | b1 :: b2 :: _ =>
        if decide ((if b0.val = 0xE0 then 0xA0 else 0x80) ≤ b1.val
            ∧ b1.val ≤ (if b0.val = 0xED then 0x9F else 0xBF)) && isCont b2 then
          some (Char.ofNat ((b0.val - 0xE0) * 4096 + (b1.val - 0x80) * 64 + (b2.val - 0x80)), 3)
        else none
      | _ => none
    else if b0.val < 0xF5 then
      match rest with
      | b1 :: b2 :: b3 :: _ =>
        if decide ((if b0.val = 0xF0 then 0x90 else 0x80) ≤ b1.val
            ∧ b1.val ≤ (if b0.val = 0xF4 then 0x8F else 0xBF)) && isCont b2 && isCont b3 then
          some (Char.ofNat ((b0.val - 0xF0) * 262144 + (b1.val - 0x80) * 4096
            + (b2.val - 0x80) * 64 + (b3.val - 0x80)), 4)
        else none
      | _ => none
    else none

/-- A Go string read the way `appendString` walks it, `skip` bytes of the
character just read still to be passed over: at each position the character
`decodeRune` finds, then on by its width, or `none` for an ill-formed byte, then
on by one byte. -/
def runesSkip : Nat → ByteString → List (Option Char)
  | _, [] => []
  | skip + 1, _ :: rest => runesSkip skip rest
  | 0, b0 :: rest =>
    match decodeRune (b0 :: rest) with
    | some (c, size) => some c :: runesSkip (size - 1) rest
    | none => none :: runesSkip 0 rest

/-- The characters and ill-formed bytes of a Go string, in order. -/
def runes (s : ByteString) : List (Option Char) := runesSkip 0 s

/-- The replacement character U+FFFD. -/
def replacementChar : Char := Char.ofNat 0xFFFD

/-- The string that comes back when what `json.Marshal` wrote for a Go string is
decoded: the characters of the string, with U+FFFD for each ill-formed byte. -/
def coerced (s : ByteString) : GoString :=
  (runes s).map (fun r => r.getD replacementChar)

/-- The keys of an entry list are strictly increasing. -/
def KeysSorted (l : List (GoString × GoString)) : Prop :=
  (l.map Prod.fst).Pairwise (· < ·)

instance (l : List (GoString × GoString)) : Decidable (KeysSorted l) := by
  unfold KeysSorted; infer_instance

/-- Entry list after `m[k] = v`. -/
def setEntries (k v : GoString) : List (GoString × GoString) → List (GoString × GoString)
  | [] => [(k, v)]
  | (k', v') :: t =>
    if k < k' then (k, v) :: (k', v') :: t
    else if k = k' then (k, v) :: t
    else (k', v') :: setEntries k v t

/-- Entry list after `delete(m, k)`. -/
def deleteEntries (k : GoString) (l : List (GoString × GoString)) : List (GoString × GoString) :=
  l.filter (fun e => decide (e.1 ≠ k))

/-- Value stored in an entry list under a key as a caller passes it: the value
of the entry whose key has these bytes, if any. -/
def lookupBytes (key : ByteString) : List (GoString × GoString) → Option GoString
  | [] => none
  | (k', v') :: t => if key = utf8 k' then some v' else lookupBytes key t

theorem mem_keys_setEntries (k v : GoString) (l : List (GoString × GoString)) (x : GoString)
    (hx : x ∈ (setEntries k v l).map Prod.fst) : x = k ∨ x ∈ l.map Prod.fst := by
  induction l with
  | nil => simp [setEntries] at hx; exact Or.inl hx
  | cons e t ih =>
    obtain ⟨k', v'⟩ := e
    unfold setEntries at hx
    split_ifs at hx with h1 h2
    · simp only [List.map_cons, List.mem_cons] at hx ⊢
      tauto
    · simp only [List.map_cons, List.mem_cons] at hx ⊢
      tauto
    · simp only [List.map_cons, List.mem_cons] at hx ⊢
      rcases hx with hx | hx
      · exact Or.inr (Or.inl hx)
      · rcases ih hx with h | h
        · exact Or.inl h
        · exact Or.inr (Or.inr h)

theorem keysSorted_setEntries (k v : GoString) (l : List (GoString × GoString))
    (hl : KeysSorted l) : KeysSorted (setEntries k v l) := by
  induction l with
  | nil => simp [setEntries, KeysSorted]
  | cons e t ih =>
    obtain ⟨k', v'⟩ := e
    unfold KeysSorted at hl ih ⊢
    simp only [List.map_cons, List.pairwise_cons] at hl
    unfold setEntries
    split_ifs with h1 h2
    · simp only [List.map_cons, List.pairwise_cons, List.mem_cons]
      refine ⟨?_, hl.1, hl.2⟩
      rintro a (rfl | ha)
      · exact h1
      · exact lt_trans h1 (hl.1 a ha)
    · subst h2
      simp only [List.map_cons, List.pairwise_cons]
      exact ⟨hl.1, hl.2⟩
    · simp only [List.map_cons, List.pairwise_cons]
      refine ⟨?_, ih hl.2⟩
      intro a ha
      rcases mem_keys_setEntries k v t a ha with rfl | h
      · exact lt_of_le_of_ne (not_lt.mp h1) (Ne.symm h2)
      · exact hl.1 a h

theorem keysSorted_deleteEntries (k : GoString) (l : List (GoString × GoString))
    (hl : KeysSorted l) : KeysSorted (deleteEntries k l) := by
  unfold KeysSorted deleteEntries at *
  exact hl.sublist ((List.filter_sublist l).map Prod.fst)

/-- A Go `map[string]string` that is not nil. -/
structure GoMap where
  entries : List (GoString × GoString)
  sorted : KeysSorted entries
  deriving DecidableEq

namespace GoMap

/-- The map `make(map[string]string)`. -/
def empty : GoMap := ⟨[], List.Pairwise.nil⟩

/-- Go: `m[k] = v`. -/
def set (m : GoMap) (k v : GoString) : GoMap :=
  ⟨setEntries k v m.entries, keysSorted_setEntries k v m.entries m.sorted⟩

/-- Go: `delete(m, k)`. -/
def delete (m : GoMap) (k : GoString) : GoMap :=
  ⟨deleteEntries k m.entries, keysSorted_deleteEntries k m.entries m.sorted⟩

/-- Go: `v, ok := m[key]` for a key as a caller passes it, as an option. -/
def get (m : GoMap) (key : ByteString) : Option GoString :=
  lookupBytes key m.entries

end GoMap

/-! ## encoding/json: writing -/

/-- Go's table `hex = "0123456789abcdef"`, indexed by a value below 16. -/
def hexDigit (n : Nat) : Char :=
  if n < 10 then Char.ofNat (48 + n) else Char.ofNat (87 + n)

/-- What `appendString` (with `escapeHTML` on, as in `Marshal`) writes for one
character of a string: a backslash escape for the quote, the backslash and the
five named control characters, a six-character escape for the other control
characters, for `<`, `>`, `&`, and for U+2028 and U+2029, and the character
itself otherwise.  (Releases before Go 1.22 write backspace and form feed as
six-character escapes; the decoder reads both forms the same way.) -/
def quoteChar (c : Char) : List Char :=
  if c = '\\' ∨ c = '"' then ['\\', c]
  else if c = Char.ofNat 8 then ['\\', 'b']
  else if c = Char.ofNat 12 then ['\\', 'f']
  else if c = '\n' then ['\\', 'n']
  else if c = '\r' then ['\\', 'r']
  else if c = '\t' then ['\\', 't']
  else if c.toNat < 32 ∨ c = '<' ∨ c = '>' ∨ c = '&' then
    ['\\', 'u', '0', '0', hexDigit (c.toNat / 16), hexDigit (c.toNat % 16)]
  else if c = Char.ofNat 0x2028 ∨ c = Char.ofNat 0x2029 then
    ['\\', 'u', '2', '0', '2', hexDigit (c.toNat % 16)]
  else [c]

/-- The characters written between the quotes for a string. -/
def quoteBody : GoString → List Char
  | [] => []
  | c :: cs => quoteChar c ++ quoteBody cs

/-- The JSON string literal `Marshal` writes for a Go string. -/
def quote (s : GoString) : List Char :=
  '"' :: (quoteBody s ++ ['"'])

/-- What `appendString` writes at one position of a Go string: the character as
`quoteChar` writes it, or the six characters `\ufffd` for an ill-formed byte. -/
def quoteRune : Option Char → List Char
  | some c => quoteChar c
  | none => ['\\', 'u', 'f', 'f', 'f', 'd']

/-- The characters written between the quotes for a Go string read as
`runes`. -/
def quoteRunes : List (Option Char) → List Char
  | [] => []
  | r :: rs => quoteRune r ++ quoteRunes rs

/-- The JSON string literal `Marshal` writes for a Go string as a caller passes
it: `appendString` on any bytes. -/
def quoteBytes (s : ByteString) : List Char :=
  '"' :: (quoteRunes (runes s) ++ ['"'])

/-- The members of a JSON object for the entries of a map, in key order. -/
def marshalEntries : List (GoString × GoString) → List Char
  | [] => []
  | [e] => quote e.1 ++ (':' :: quote e.2)
  | e :: e' :: t => quote e.1 ++ (':' :: quote e.2) ++ (',' :: marshalEntries (e' :: t))

/-- Go: `json.Marshal(m)` for `m : map[string]string`: `null` for the nil map,
otherwise an object with the keys in sorted order.  It cannot fail. -/
def MarshalMap : Option GoMap → List Char
  | none => ['n', 'u', 'l', 'l']
  | some m => '{' :: (marshalEntries m.entries ++ ['}'])

/-! ## encoding/json: reading

`Unmarshal` first checks the whole input against the JSON grammar and reports a
syntax error before storing anything.  The check is embedded as a scanner that
cuts the text into tokens, one character at a time, followed by a stack machine
over the tokens; both reject exactly the texts the library's scanner rejects. -/

/-- A lexical token of a JSON text.  A string token carries the decoded
string. -/
inductive Token
  | lbrace | rbrace | lbracket | rbracket | colon | comma
  | str (s : GoString)
  | num (raw : List Char)
  | litTrue | litFalse | litNull
  deriving DecidableEq

/-- Positions inside a number, named after the scanner's states `stateNeg`,
`state0`, `state1`, `stateDot`, `stateDot0`, `stateE`, `stateESign`,
`stateE0`. -/
inductive NumState
  | neg | zero | int | dot | frac | exp | expSign | expDigits
  deriving DecidableEq

/-- Character `0` to `9`. -/
def isDigit (c : Char) : Bool := decide ('0' ≤ c ∧ c ≤ '9')

/-- The next state inside a number, or `none` when the character cannot extend
it. -/
def NumState.step : NumState → Char → Option NumState
  | .neg, c =>
    if c = '0' then some .zero else if decide ('1' ≤ c ∧ c ≤ '9') then some .int else none
  | .zero, c =>
    if c = '.' then some .dot else if c = 'e' ∨ c = 'E' then some .exp else none
  | .int, c =>
    if isDigit c then some .int
    else if c = '.' then some .dot else if c = 'e' ∨ c = 'E' then some .exp else none
  | .dot, c => if isDigit c then some .frac else none
  | .frac, c =>
    if isDigit c then some .frac else if c = 'e' ∨ c = 'E' then some .exp else none
  | .exp, c =>
    if c = '+' ∨ c = '-' then some .expSign else if isDigit c then some .expDigits else none
  | .expSign, c => if isDigit c then some .expDigits else none
  | .expDigits, c => if isDigit c then some .expDigits else none

/-- The states in which a number may end. -/
def NumState.accepting : NumState → Bool
  | .zero | .int | .frac | .expDigits => true
  | _ => false

/-- State of the scanner between two characters.  Inside a string, `hi` is the
high surrogate of a `\u` escape that still waits for its low half. -/
inductive LexState
  | top
  | str (acc : GoString) (hi : Option Nat)
  | esc (acc : GoString) (hi : Option Nat)
  | hex (acc : GoString) (hi : Option Nat) (k : Nat) (v : Nat)
  | num (st : NumState) (raw : List Char)
  | lit (expect : List Char) (tok : Token)

/-- Value of a hexadecimal digit. -/
def hexVal (c : Char) : Option Nat :=
  if decide ('0' ≤ c ∧ c ≤ '9') then some (c.toNat - 48)
  else if decide ('a' ≤ c ∧ c ≤ 'f') then some (c.toNat - 87)
  else if decide ('A' ≤ c ∧ c ≤ 'F') then some (c.toNat - 55)
  else none

/-- A high surrogate left without its low half decodes to U+FFFD. -/
def flush (acc : GoString) : Option Nat → GoString
  | none => acc
  | some _ => acc ++ [replacementChar]

/-- The state after a complete `\uXXXX` escape of value `v` (`unquoteBytes`): a
high surrogate waits for the next escape, a surrogate pair combines, a lone
surrogate becomes U+FFFD. -/
def finishU (acc : GoString) (hi : Option Nat) (v : Nat) : LexState :=
  match hi with
  | some h =>
    if 0xDC00 ≤ v ∧ v < 0xE000 then
      .str (acc ++ [Char.ofNat (0x10000 + (h - 0xD800) * 0x400 + (v - 0xDC00))]) none
    else if 0xD800 ≤ v ∧ v < 0xDC00 then .str (acc ++ [replacementChar]) (some v)
    else .str (acc ++ [replacementChar, Char.ofNat v]) none
  | none =>
    if 0xD800 ≤ v ∧ v < 0xDC00 then .str acc (some v)
    else if 0xDC00 ≤ v ∧ v < 0xE000 then .str (acc ++ [replacementChar]) none
    else .str (acc ++ [Char.ofNat v]) none

/-- The character a one-letter escape stands for. -/
def simpleEscape (c : Char) : Option Char :=
  if c = '"' then some '"'
  else if c = '\\' then some '\\'
  else if c = '/' then some '/'
  else if c = 'b' then some (Char.ofNat 8)
  else if c = 'f' then some (Char.ofNat 12)
  else if c = 'n' then some '\n'
  else if c = 'r' then some '\r'
  else if c = 't' then some '\t'
  else none

/-- JSON white space. -/
def isSpace (c : Char) : Bool :=
  decide (c = ' ' ∨ c = '\t' ∨ c = '\r' ∨ c = '\n')

/-- One character read between tokens: the next state and the tokens completed
by it, or `none` for a character that cannot start a token. -/
def topStep (c : Char) : Option (LexState × List Token) :=
  if isSpace c then some (.top, [])
  else if c = '{' then some (.top, [.lbrace])
  else if c = '}' then some (.top, [.rbrace])
  else if c = '[' then some (.top, [.lbracket])
  else if c = ']' then some (.top, [.rbracket])
  else if c = ':' then some (.top, [.colon])
  else if c = ',' then some (.top, [.comma])
  else if c = '"' then some (.str [] none, [])
  else if c = '-' then some (.num .neg [c], [])
  else if c = '0' then some (.num .zero [c], [])
  else if decide ('1' ≤ c ∧ c ≤ '9') then some (.num .int [c], [])
  else if c = 't' then some (.lit ['r', 'u', 'e'] .litTrue, [])
  else if c = 'f' then some (.lit ['a', 'l', 's', 'e'] .litFalse, [])
  else if c = 'n' then some (.lit ['u', 'l', 'l'] .litNull, [])
  else none

/-- One step of the scanner. -/
def lexStep : LexState → Char → Option (LexState × List Token)
  | .top, c => topStep c
  | .str acc hi, c =>
    if c = '"' then some (.top, [.str (flush acc hi)])
    else if c = '\\' then some (.esc acc hi, [])
    else if c.toNat < 32 then none
    else some (.str (flush acc hi ++ [c]) none, [])
  | .esc acc hi, c =>
    if c = 'u' then some (.hex acc hi 0 0, [])
    else match simpleEscape c with
      | some d => some (.str (flush acc hi ++ [d]) none, [])
      | none => none
  | .hex acc hi k v, c =>
    match hexVal c with
    | none => none
    | some d =>
      if k < 3 then some (.hex acc hi (k + 1) (v * 16 + d), [])
      else some (finishU acc hi (v * 16 + d), [])
  | .num st raw, c =>
    match st.step c with
    | some st' => some (.num st' (raw ++ [c]), [])
    | none =>
      if st.accepting then
        match topStep c with
        | some (s, ts) => some (s, .num raw :: ts)
        | none => none
      else none
  | .lit expect tok, c =>
    match expect with
    | [] => none
    | [e] => if c = e then some (.top, [tok]) else none
    | e :: more => if c = e then some (.lit more tok, []) else none

/-- The tokens still due at the end of the input, or `none` when the input ends
inside a token. -/
def lexEnd : LexState → Option (List Token)
  | .top => some []
  | .num st raw => if st.accepting then some [.num raw] else none
  | _ => none

/-- The scanner run from a state over the rest of the input. -/
def lexRun : LexState → List Char → Option (List Token)
  | s, [] => lexEnd s
  | s, c :: cs =>
    match lexStep s c with
    | none => none
    | some (s', ts) => (lexRun s' cs).map (ts ++ ·)

/-- The tokens of a JSON text, or `none` for a lexical error. -/
def lex (data : List Char) : Option (List Token) := lexRun .top data

/-- A JSON value. -/
inductive JValue
  | null
  | bool (b : Bool)
  | number (raw : List Char)
  | string (s : GoString)
  | array (items : List JValue)
  | object (members : List (GoString × JValue))

/-- An array or object under construction; an object frame holds the key whose
value is being read. -/
inductive Frame
  | arr (items : List JValue)
  | obj (members : List (GoString × JValue)) (key : Option GoString)

/-- What the parser expects next. -/
inductive Phase
  | value | valueOrClose | keyOrClose | key | colon | next
  | done (v : JValue)

/-- State of the parser: what it expects and the open arrays and objects,
innermost first. -/
structure PState where
  phase : Phase
  stack : List Frame

/-- The scanner's `maxNestingDepth`. -/
def maxNestingDepth : Nat := 10000

/-- A value is complete: it is the top-level value, or it joins the innermost
open array or object. -/
def finishValue (v : JValue) : List Frame → Option PState
  | [] => some ⟨.done v, []⟩
  | .arr items :: rest => some ⟨.next, .arr (items ++ [v]) :: rest⟩
  | .obj members (some k) :: rest => some ⟨.next, .obj (members ++ [(k, v)]) none :: rest⟩
  | .obj _ none :: _ => none

/-- A token read where a value must start. -/
def startValue (stack : List Frame) : Token → Option PState
  | .str s => finishValue (.string s) stack
  | .num raw => finishValue (.number raw) stack
  | .litTrue => finishValue (.bool true) stack
  | .litFalse => finishValue (.bool false) stack
  | .litNull => finishValue .null stack
  | .lbracket =>
    if stack.length < maxNestingDepth then some ⟨.valueOrClose, .arr [] :: stack⟩ else none
  | .lbrace =>
    if stack.length < maxNestingDepth then some ⟨.keyOrClose, .obj [] none :: stack⟩ else none
  | _ => none

/-- A string token read where an object key is due. -/
def startKey (stack : List Frame) : Token → Option PState
  | .str k =>
    match stack with
    | .obj members none :: rest => some ⟨.colon, .obj members (some k) :: rest⟩
    | _ => none
  | _ => none

/-- A closing bracket or brace: the innermost open value is complete. -/
def closeFrame (stack : List Frame) : Token → Option PState
  | .rbracket =>
    match stack with
    | .arr items :: rest => finishValue (.array items) rest
    | _ => none
  | .rbrace =>
    match stack with
    | .obj members none :: rest => finishValue (.object members) rest
    | _ => none
  | _ => none

/-- One step of the parser. -/
def parseStep (s : PState) (t : Token) : Option PState :=
  match s.phase with
  | .value => startValue s.stack t
  | .valueOrClose => if t = .rbracket then closeFrame s.stack t else startValue s.stack t
  | .keyOrClose => if t = .rbrace then closeFrame s.stack t else startKey s.stack t
  | .key => startKey s.stack t
  | .colon => if t = .colon then some ⟨.value, s.stack⟩ else none
  | .next =>
    if t = .comma then
      match s.stack with
      | .arr _ :: _ => some ⟨.value, s.stack⟩
      | .obj _ _ :: _ => some ⟨.key, s.stack⟩
      | [] => none
    else closeFrame s.stack t
  | .done _ => none

/-- The parser run from a state over the rest of the tokens; the input must end
right after the top-level value. -/
def parseRun : PState → List Token → Option JValue
  | s, [] =>
    match s.phase with
    | .done v => some v
    | _ => none
  | s, t :: ts =>
    match parseStep s t with
    | none => none
    | some s' => parseRun s' ts

/-- The value a JSON text denotes, or `none` when `checkValid` reports a syntax
error. -/
def parseJSON (data : List Char) : Option JValue :=
  match lex data with
  | none => none
  | some ts => parseRun ⟨.value, []⟩ ts

/-- The errors of `Unmarshal`: a `SyntaxError` from the check of the input, or
an `UnmarshalTypeError` for a JSON value that does not fit its target. -/
inductive JsonError
  | syntaxError
  | typeError
  deriving DecidableEq

/-- Go: `d.saveError`: the earliest error is the one reported. -/
def saveError (saved : Option JsonError) (err : Option JsonError) : Option JsonError :=
  match saved with
  | some e => some e
  | none => err

/-- A JSON value stored into a Go string: a JSON string is stored, `null` leaves
the target as it is, any other value leaves it as it is and is a type error. -/
def storeString (old : GoString) : JValue → GoString × Option JsonError
  | .string s => (s, none)
  | .null => (old, none)
  | _ => (old, some .typeError)

/-- One member of a JSON object stored into a `map[string]string`: the element
starts from the zero string, receives the value, and is written under the key
whether or not the value fitted. -/
def storeMember (acc : GoMap × Option JsonError) (kv : GoString × JValue) :
    GoMap × Option JsonError :=
  let r := storeString [] kv.2
  (acc.1.set kv.1 r.1, saveError acc.2 r.2)

/-- Go: `json.Unmarshal(data, &target)` for `target : map[string]string`.  A
syntax error stores nothing.  `null` sets the map to nil.  An object is stored
member by member into the existing map, or into a new one when the target is
nil; entries already in the map stay.  Any other value is a type error. -/
def UnmarshalMap (data : List Char) (target : Option GoMap) : Option GoMap × Option JsonError :=
  match parseJSON data with
  | none => (target, some .syntaxError)
  | some .null => (none, none)
  | some (.object members) =>
    let r := members.foldl storeMember (target.getD GoMap.empty, none)
    (some r.1, r.2)
  | some _ => (target, some .typeError)

/-- The fold of one character of a field name: ASCII letters to upper case, and
the two characters outside ASCII whose fold is an ASCII letter, the Kelvin sign
and the long s.  (The library folds further characters among themselves; none of
them folds to an ASCII letter, and the field names here are ASCII.) -/
def foldRune (c : Char) : Char :=
  if decide ('a' ≤ c ∧ c ≤ 'z') then Char.ofNat (c.toNat - 32)
  else if c = Char.ofNat 0x212A then 'K'
  else if c = Char.ofNat 0x17F then 'S'
  else c

/-- Go: `foldName`. -/
def foldName (s : GoString) : GoString := s.map foldRune

/-- An object key selects the struct field of this name: `Unmarshal` prefers an
exact match and also accepts a case-insensitive one. -/
def fieldMatches (name key : GoString) : Bool :=
  decide (key = name) || decide (foldName key = foldName name)

/-- Go: `json.Unmarshal(data, &target)` for a struct target, `store` storing one
member into the struct.  A syntax error stores nothing, `null` changes nothing,
an object is stored member by member, any other value is a type error. -/
def UnmarshalStruct {α : Type} (store : α → GoString × JValue → α × Option JsonError)
    (data : List Char) (target : α) : α × Option JsonError :=
  match parseJSON data with
  | none => (target, some .syntaxError)
  | some .null => (target, none)
  | some (.object members) =>
    members.foldl (fun acc kv => let r := store acc.1 kv; (r.1, saveError acc.2 r.2))
      (target, none)
  | some _ => (target, some .typeError)

/-! ## managers/key-value-manager.go -/

/-- Go: `const OpSet Operation = "set"`. -/
def OpSet : GoString := ['s', 'e', 't']

/-- Go: `const OpDelete Operation = "delete"`. -/
def OpDelete : GoString := ['d', 'e', 'l', 'e', 't', 'e']

/-- Go: `type command struct`. -/
structure command where
  Op : GoString
  deriving DecidableEq

/-- Go: `type SetCommand struct`. -/
structure SetCommand where
  Op : GoString
  Key : GoString
  Value : GoString
  deriving DecidableEq

/-- Go: `type DeleteCommand struct`. -/
structure DeleteCommand where
  Op : GoString
  Key : GoString
  deriving DecidableEq

/-- The JSON name of the field `Op`. -/
def nameOp : GoString := ['o', 'p']

/-- The JSON name of the field `Key`. -/
def nameKey : GoString := ['k', 'e', 'y']

/-- The JSON name of the field `Value`. -/
def nameValue : GoString := ['v', 'a', 'l', 'u', 'e']

/-- One object member stored into a `command`; a key that selects no field is
skipped. -/
def command.store (c : command) (kv : GoString × JValue) : command × Option JsonError :=
  if fieldMatches nameOp kv.1 then
    let r := storeString c.Op kv.2
    ({ c with Op := r.1 }, r.2)
  else (c, none)

/-- One object member stored into a `SetCommand`. -/
def SetCommand.store (c : SetCommand) (kv : GoString × JValue) :
    SetCommand × Option JsonError :=
  if fieldMatches nameOp kv.1 then
    let r := storeString c.Op kv.2
    ({ c with Op := r.1 }, r.2)
  else if fieldMatches nameKey kv.1 then
    let r := storeString c.Key kv.2
    ({ c with Key := r.1 }, r.2)
  else if fieldMatches nameValue kv.1 then
    let r := storeString c.Value kv.2
    ({ c with Value := r.1 }, r.2)
  else (c, none)

/-- One object member stored into a `DeleteCommand`. -/
def DeleteCommand.store (c : DeleteCommand) (kv : GoString × JValue) :
    DeleteCommand × Option JsonError :=
  if fieldMatches nameOp kv.1 then
    let r := storeString c.Op kv.2
    ({ c with Op := r.1 }, r.2)
  else if fieldMatches nameKey kv.1 then
    let r := storeString c.Key kv.2
    ({ c with Key := r.1 }, r.2)
  else (c, none)

/-- Go: `json.Marshal(cmd)` for `cmd := SetCommand{Op: op, Key: key, Value:
value}`, `key` and `value` being strings as a caller passes them: the fields in
the order of their declaration, each string written by `appendString`. -/
def MarshalSetCommand (op : GoString) (key value : ByteString) : List Char :=
  '{' :: (quote nameOp ++ (':' :: quote op) ++ (',' :: quote nameKey)
    ++ (':' :: quoteBytes key) ++ (',' :: quote nameValue) ++ (':' :: quoteBytes value) ++ ['}'])

/-- Go: `json.Marshal(cmd)` for `cmd := DeleteCommand{Op: op, Key: key}`, `key`
being a string as a caller passes it. -/
def MarshalDeleteCommand (op : GoString) (key : ByteString) : List Char :=
  '{' :: (quote nameOp ++ (':' :: quote op) ++ (',' :: quote nameKey)
    ++ (':' :: quoteBytes key) ++ ['}'])

/-- Go: `type KeyValueManager struct`.  The field `raft` is left out: of the
methods embedded here only `Set` and `Delete` use it, to hand over the bytes
they encoded. -/
structure KeyValueManager where
  values : Option GoMap
  deriving DecidableEq

/-- Go: `NewKeyValueManager`. -/
def NewKeyValueManager : KeyValueManager := ⟨some GoMap.empty⟩

namespace KeyValueManager

/-- Go: `(*KeyValueManager).Get`, the key being any Go string.  A missing key,
and any key of the nil map, gives the zero string and `false`. -/
def Get (manager : KeyValueManager) (key : ByteString) : GoString × Bool :=
  match manager.values with
  | none => ([], false)
  | some m =>
    match m.get key with
    | some value => (value, true)
    | none => ([], false)

/-- Go: `(*KeyValueManager).Set`, up to the call of `raft.Apply`, the key and the
value being any Go strings: the bytes handed to the consensus engine as the log
entry. -/
def Set (key value : ByteString) : List Char :=
  MarshalSetCommand OpSet key value

/-- Go: `(*KeyValueManager).Delete`, up to the call of `raft.Apply`, the key
being any Go string: the bytes handed to the consensus engine as the log
entry. -/
def Delete (key : ByteString) : List Char :=
  MarshalDeleteCommand OpDelete key

end KeyValueManager

/-- How a call of `Apply` ends: it returns, `log.Fatalf` ends the process, or
the assignment to an entry of the nil map panics.  Each outcome carries the
manager as the call leaves it. -/
inductive ApplyResult
  | returned (manager : KeyValueManager)
  | fatal (manager : KeyValueManager)
  | panic (manager : KeyValueManager)
  deriving DecidableEq

namespace KeyValueManager

/-- Go: `(*KeyValueManager).Apply` on a log entry with the payload `data`. -/
def Apply (manager : KeyValueManager) (data : List Char) : ApplyResult :=
  let r := UnmarshalStruct command.store data { Op := [] }
  if r.2 ≠ none then .fatal manager
  else if r.1.Op = OpSet then
    let rs := UnmarshalStruct SetCommand.store data { Op := [], Key := [], Value := [] }
    if rs.2 ≠ none then .fatal manager
    else
      match manager.values with
      | none => .panic manager
      | some m => .returned ⟨some (m.set rs.1.Key rs.1.Value)⟩
  else if r.1.Op = OpDelete then
    let rd := UnmarshalStruct DeleteCommand.store data { Op := [], Key := [] }
    if rd.2 ≠ none then .fatal manager
    else
      match manager.values with
      | none => .returned manager
      | some m => .returned ⟨some (m.delete rd.1.Key)⟩
  else .fatal manager

end KeyValueManager

/-- Go: `type KeyValueSnapshot struct`. -/
structure KeyValueSnapshot where
  Values : Option GoMap
  deriving DecidableEq

/-- A `raft.SnapshotSink` held in memory: the bytes written so far, whether
`Write` and `Close` report an error, and whether the sink has been closed or
cancelled.  A `Write` that reports an error stores nothing. -/
structure SnapshotSink where
  written : List Char
  writeFails : Bool
  closeFails : Bool
  closed : Bool
  cancelled : Bool
  deriving DecidableEq

/-- The error `Persist` returns. -/
inductive PersistError
  | write
  | close
  deriving DecidableEq

/-- Go: `(*KeyValueSnapshot).Persist`: the sink afterwards and the error
returned. -/
def KeyValueSnapshot.Persist (s : KeyValueSnapshot) (sink : SnapshotSink) :
    SnapshotSink × Option PersistError :=
  let bytes := MarshalMap s.Values
  if sink.writeFails then ({ sink with cancelled := true }, some .write)
  else
    let sink1 := { sink with written := sink.written ++ bytes }
    if sink1.closeFails then ({ sink1 with cancelled := true }, some .close)
    else ({ sink1 with closed := true }, none)

/-- The error `Restore` returns. -/
inductive RestoreError
  | read
  | json (e : JsonError)
  deriving DecidableEq

namespace KeyValueManager

/-- Go: `(*KeyValueManager).Snapshot`; its error is always nil. -/
def Snapshot (manager : KeyValueManager) : KeyValueSnapshot := ⟨manager.values⟩

/-- Go: `(*KeyValueManager).Restore`.  The stream is what `io.ReadAll` makes
of it: `none` for a read error, the bytes otherwise. -/
def Restore (manager : KeyValueManager) (rc : Option (List Char)) :
    KeyValueManager × Option RestoreError :=
  match rc with
  | none => (manager, some .read)
  | some bytes =>
    let r := UnmarshalMap bytes manager.values
    (⟨r.1⟩, r.2.map RestoreError.json)

end KeyValueManager

/-! ## cmd/server/main.go: JoinCluster -/

/-- What the surroundings answer during `JoinCluster`, by the value of the loop
counter `retries`: `getConfiguration` is `none` when the future of
`raftNode.GetConfiguration()` carries an error and the number of servers in the
configuration otherwise; `joinLeaderNode` is `true` when `JoinLeaderNode`
returns a nil error. -/
structure JoinEnv where
  getConfiguration : Nat → Option Nat
  joinLeaderNode : Nat → Bool

/-- What `JoinCluster` does to the outside. -/
inductive JoinEvent
  | joinRequest
  | sleep
  deriving DecidableEq

/-- How `JoinCluster` ends; `unfinished` is the loop cut short by the fuel of
the embedding. -/
inductive JoinEnd
  | returned
  | fatal
  | unfinished
  deriving DecidableEq

/-- The loop `for retries := 0; retries <= 10; retries++` from the counter value
`retries` on, and the `log.Fatal` after it. -/
def joinLoop (env : JoinEnv) : Nat → Nat → List JoinEvent × JoinEnd
  | 0, _ => ([], .unfinished)
  | fuel + 1, retries =>
    if retries ≤ 10 then
      let attempt : List JoinEvent × JoinEnd :=
        if env.joinLeaderNode retries then ([.joinRequest], .returned)
        else
          let r := joinLoop env fuel (retries + 1)
          (.joinRequest :: .sleep :: r.1, r.2)
      match env.getConfiguration retries with
      | none => attempt
      | some servers => if servers > 0 then ([], .returned) else attempt
    else ([], .fatal)

/-- Go: `JoinCluster`. -/
def JoinCluster (env : JoinEnv) : List JoinEvent × JoinEnd :=
  joinLoop env 12 0

/-! ## config/main.go: ParseConfig -/

/-- Go: `type Config struct`. -/
structure Config where
  Name : GoString
  Host : GoString
  Port : Int
  RaftPort : Int
  Bootstrap : Bool
  JoinAddr : GoString
  deriving DecidableEq

/-- What opening the file and decoding it gave: the file could not be opened,
the decoder failed (leaving `config` as far as it had filled it), or the decoder
succeeded. -/
inductive ConfigFile
  | openFailed
  | decodeFailed (config : Config)
  | decoded (config : Config)

/-- The errors of `ParseConfig`. -/
inductive ConfigError
  | openFile
  | decodeFile
  | nameRequired
  | hostRequired
  | portRequired
  | raftPortRequired
  | bootstrapAndJoin
  deriving DecidableEq

/-- Go: `ParseConfig`, from the outcome of `os.Open` and `Decode` on. -/
def ParseConfig : ConfigFile → Config × Option ConfigError
  | .openFailed => (⟨[], [], 0, 0, false, []⟩, some .openFile)
  | .decodeFailed config => (config, some .decodeFile)
  | .decoded config =>
    if config.Name = [] then (config, some .nameRequired)
    else if config.Host = [] then (config, some .hostRequired)
    else if config.Port = 0 then (config, some .portRequired)
    else if config.RaftPort = 0 then (config, some .raftPortRequired)
    else if config.Bootstrap = true ∧ config.JoinAddr ≠ [] then (config, some .bootstrapAndJoin)
    else (config, none)

/-! ## Notions used to state the theorems -/

/-- The tokens of the members `marshalEntries` writes. -/
def entryTokens : List (GoString × GoString) → List Token
  | [] => []
  | [e] => [.str e.1, .colon, .str e.2]
  | e :: e' :: t => .str e.1 :: .colon :: .str e.2 :: .comma :: entryTokens (e' :: t)

/-- The members of the JSON object written for a list of entries. -/
def memberValues (es : List (GoString × GoString)) : List (GoString × JValue) :=
  es.map (fun e => (e.1, JValue.string e.2))

/-- The JSON value `null`. -/
def JValue.isNull : JValue → Bool
  | .null => true
  | _ => false

/-- A member of a JSON object bears on the field `Op`: its key selects the field
(as `Unmarshal` compares keys, letter case ignored) and its value is not `null`,
which `Unmarshal` passes over. -/
def bearsOnOp (kv : GoString × JValue) : Bool :=
  fieldMatches nameOp kv.1 && !kv.2.isNull

/-- The operation tag of a payload: the value of the last member of the object
that bears on the field `Op`.  A value that is not an object has no tag. -/
def opTag : JValue → Option JValue
  | .object members => ((members.filter bearsOnOp).getLast?).map Prod.snd
  | _ => none

/-! ## Concrete stores, sinks and payloads used below -/

/-- A store with two entries, one of them outside ASCII. -/
def exampleStore : GoMap :=
  ⟨[(['a'], ['1']), (['k', 'é'], ['v', 'ü', '✓'])], by decide⟩

/-- A store holding the single entry `x = 1`. -/
def staleStore : GoMap := ⟨[(['x'], ['1'])], by decide⟩

/-- A store holding the single entry `a = 0`. -/
def oldStore : GoMap := ⟨[(['a'], ['0'])], by decide⟩

/-- The store `a = 1`, `b = ""`. -/
def tornStore : GoMap := ⟨[(['a'], ['1']), (['b'], [])], by decide⟩

/-- The store holding the single entry `k = v`. -/
def kvStore : GoMap := ⟨[(['k'], ['v'])], by decide⟩

/-- The byte string `ff`, which is not well-formed UTF-8. -/
def illFormedKey : ByteString := [0xff]

/-- The byte string `61 c3`: the letter `a`, then an encoding cut short. -/
def illFormedValue : ByteString := [0x61, 0xc3]

/-- The store whose one key is the replacement character, with the value `1`. -/
def replacementOne : GoMap := ⟨[([replacementChar], ['1'])], by decide⟩

/-- The store whose one key is the replacement character, with the value `2`. -/
def replacementTwo : GoMap := ⟨[([replacementChar], ['2'])], by decide⟩

/-- The store holding the single entry `k = 1`. -/
def kOneStore : GoMap := ⟨[(['k'], ['1'])], by decide⟩

/-- The store whose one key is `k`, with the value `a` followed by the
replacement character. -/
def kRewrittenStore : GoMap := ⟨[(['k'], ['a', replacementChar])], by decide⟩

/-- The store whose one key is the replacement character, with the value `a`
followed by the replacement character. -/
def rewrittenStore : GoMap := ⟨[([replacementChar], ['a', replacementChar])], by decide⟩

/-- A new sink that accepts every write and closes without error. -/
def freshSink : SnapshotSink :=
  { written := [], writeFails := false, closeFails := false, closed := false, cancelled := false }

/-- A snapshot in which the value of `b` is a number. -/
def mixedSnapshot : List Char := "\x7b\"a\":\"1\",\"b\":2\x7d".toList

/-- A log payload whose discriminator is spelled in capitals. -/
def upperCasePayload : List Char := "\x7b\"OP\":\"set\",\"key\":\"k\",\"value\":\"v\"\x7d".toList

/-- A log payload with an operation that does not exist. -/
def unknownOpPayload : List Char := "\x7b\"op\":\"sett\"\x7d".toList

/-- Surroundings in which the local configuration stays empty and the peer
rejects every join request. -/
def rejectingEnv : JoinEnv :=
  { getConfiguration := fun _ => some 0, joinLeaderNode := fun _ => false }

/-- Surroundings in which the local configuration already lists one server. -/
def joinedEnv : JoinEnv :=
  { getConfiguration := fun _ => some 1, joinLeaderNode := fun _ => false }

/-! # Theorems -/

/-! ## UTF-8: reading back the bytes of a well-formed string -/

theorem char_range (c : Char) : c.toNat < 0xD800 ∨ (0xDFFF < c.toNat ∧ c.toNat < 0x110000) := by
  have h := c.valid
  simp only [UInt32.isValidChar, Nat.isValidChar] at h
  exact h

theorem decodeRune_utf8Char (c : Char) (rest : ByteString) :
    decodeRune (utf8Char c ++ rest) = some (c, (utf8Char c).length) := by
  have hr := char_range c
  unfold utf8Char
  split_ifs with h1 h2 h3
  · simp [decodeRune, byte, Nat.mod_eq_of_lt (show c.toNat < 256 by omega), h1]
  · have e0 : (192 + c.toNat / 64) % 256 = 192 + c.toNat / 64 := by omega
    have e1 : (128 + c.toNat % 64) % 256 = 128 + c.toNat % 64 := by omega
    have a1 : ¬ (192 + c.toNat / 64 < 128) := by omega
    have a2 : ¬ (192 + c.toNat / 64 < 194) := by omega
    have a3 : 192 + c.toNat / 64 < 224 := by omega
    have a4 : 128 + c.toNat % 64 < 192 := by omega
    have ev : (192 + c.toNat / 64 - 192) * 64 + (128 + c.toNat % 64 - 128) = c.toNat := by omega
    simp [decodeRune, byte, isCont, e0, e1, a1, a2, a3, a4, ev]
    have hv : c.toNat / 64 * 64 + c.toNat % 64 = c.toNat := by omega
    rw [hv, Char.ofNat_toNat]
  · have e0 : (224 + c.toNat / 4096) % 256 = 224 + c.toNat / 4096 := by omega
    have e1 : (128 + c.toNat / 64 % 64) % 256 = 128 + c.toNat / 64 % 64 := by omega
    have e2 : (128 + c.toNat % 64) % 256 = 128 + c.toNat % 64 := by omega
    have a1 : ¬ (224 + c.toNat / 4096 < 128) := by omega
    have a2 : ¬ (224 + c.toNat / 4096 < 194) := by omega
    have a3 : ¬ (224 + c.toNat / 4096 < 224) := by omega
    have a4 : 224 + c.toNat / 4096 < 240 := by omega
    have a5 : 128 + c.toNat / 64 % 64 < 192 := by omega
    have a6 : 128 + c.toNat % 64 < 192 := by omega
    have a7 : (if 224 + c.toNat / 4096 = 224 then 160 else 128) ≤ 128 + c.toNat / 64 % 64 := by
      split_ifs <;> omega
    have a8 : 128 + c.toNat / 64 % 64 ≤ (if 224 + c.toNat / 4096 = 237 then 159 else 191) := by
      split_ifs <;> omega
    have ev : (224 + c.toNat / 4096 - 224) * 4096 + (128 + c.toNat / 64 % 64 - 128) * 64
        + (128 + c.toNat % 64 - 128) = c.toNat := by omega
    simp [decodeRune, byte, isCont, e0, e1, e2, a1, a2, a3, a4, a5, a6, a7, a8, ev]
    have hv : c.toNat / 4096 * 4096 + c.toNat / 64 % 64 * 64 + c.toNat % 64 = c.toNat := by omega
    refine ⟨by split_ifs <;> omega, ?_⟩
    rw [hv, Char.ofNat_toNat]
  · have e0 : (240 + c.toNat / 262144) % 256 = 240 + c.toNat / 262144 := by omega
    have e1 : (128 + c.toNat / 4096 % 64) % 256 = 128 + c.toNat / 4096 % 64 := by omega
    have e2 : (128 + c.toNat / 64 % 64) % 256 = 128 + c.toNat / 64 % 64 := by omega
    have e3 : (128 + c.toNat % 64) % 256 = 128 + c.toNat % 64 := by omega
    have a1 : ¬ (240 + c.toNat / 262144 < 128) := by omega
    have a2 : ¬ (240 + c.toNat / 262144 < 194) := by omega
    have a3 : ¬ (240 + c.toNat / 262144 < 224) := by omega
    have a4 : ¬ (240 + c.toNat / 262144 < 240) := by omega
    have a5 : 240 + c.toNat / 262144 < 245 := by omega
    have a6 : 128 + c.toNat / 64 % 64 < 192 := by omega
    have a7 : 128 + c.toNat % 64 < 192 := by omega
    have a8 : (if 240 + c.toNat / 262144 = 240 then 144 else 128) ≤ 128 + c.toNat / 4096 % 64 := by
      split_ifs <;> omega
    have a9 : 128 + c.toNat / 4096 % 64 ≤ (if 240 + c.toNat / 262144 = 244 then 143 else 191) := by
      split_ifs <;> omega
    have ev : (240 + c.toNat / 262144 - 240) * 262144 + (128 + c.toNat / 4096 % 64 - 128) * 4096
        + (128 + c.toNat / 64 % 64 - 128) * 64 + (128 + c.toNat % 64 - 128) = c.toNat := by omega
    simp [decodeRune, byte, isCont, e0, e1, e2, e3, a1, a2, a3, a4, a5, a6, a7, a8, a9, ev]
    have hv : c.toNat / 262144 * 262144 + c.toNat / 4096 % 64 * 4096 + c.toNat / 64 % 64 * 64
        + c.toNat % 64 = c.toNat := by omega
    refine ⟨by split_ifs <;> omega, ?_⟩
    rw [hv, Char.ofNat_toNat]

theorem runesSkip_utf8Char (c : Char) (rest : ByteString) :
    runesSkip 0 (utf8Char c ++ rest) = some c :: runesSkip 0 rest := by
  have hd := decodeRune_utf8Char c rest
  unfold utf8Char at hd ⊢
  split_ifs at hd ⊢ <;>
    simp only [List.cons_append, List.nil_append, List.length_cons, List.length_nil] at hd ⊢ <;>
    simp [runesSkip, hd]

theorem runes_utf8 (t : GoString) : runes (utf8 t) = t.map some := by
  unfold runes
  induction t with
  | nil => rfl
  | cons c cs ih => rw [utf8, runesSkip_utf8Char, ih]; rfl

theorem coerced_utf8 (t : GoString) : coerced (utf8 t) = t := by
  unfold coerced
  rw [runes_utf8, List.map_map]
  exact List.map_id t

theorem utf8_injective {a b : GoString} (h : utf8 a = utf8 b) : a = b := by
  rw [← coerced_utf8 a, ← coerced_utf8 b, h]

theorem toNat_ofNat_valid (n : Nat) (h : n < 0xD800 ∨ (0xDFFF < n ∧ n < 0x110000)) :
    (Char.ofNat n).toNat = n := by
  have hv : n.isValidChar := h
  simp only [Char.ofNat, hv, dite_true, Char.ofNatAux, Char.toNat]
  rfl

theorem byte_val_eq (b : Byte) (n : Nat) (h : n = b.val) : byte n = b := by
  apply Fin.ext
  simp only [byte]
  have := b.isLt
  omega

theorem utf8Char_of_decodeRune (b0 : Byte) (rest : ByteString) (c : Char) (n : Nat)
    (h : decodeRune (b0 :: rest) = some (c, n)) :
    ∃ tail rest', rest = tail ++ rest' ∧ tail.length + 1 = n ∧ utf8Char c = b0 :: tail := by
  have hb0 := b0.isLt
  simp only [decodeRune] at h
  by_cases h1 : b0.val < 0x80
  · simp only [h1, if_true, Option.some.injEq, Prod.mk.injEq] at h
    obtain ⟨rfl, rfl⟩ := h
    refine ⟨[], rest, rfl, rfl, ?_⟩
    have hc := toNat_ofNat_valid b0.val (by omega)
    simp only [utf8Char, hc, h1, if_true]
    rw [byte_val_eq b0 _ rfl]
  by_cases h2 : b0.val < 0xC2
  · simp [h1, h2] at h
  by_cases h3 : b0.val < 0xE0
  · simp only [h1, h2, h3, if_true, if_false] at h
    cases rest with
    | nil => simp at h
    | cons b1 r1 =>
      by_cases hc1 : isCont b1 = true
      · simp only [hc1, if_true, Option.some.injEq, Prod.mk.injEq] at h
        obtain ⟨rfl, rfl⟩ := h
        simp only [isCont, decide_eq_true_eq] at hc1
        refine ⟨[b1], r1, rfl, rfl, ?_⟩
        have hc := toNat_ofNat_valid ((b0.val - 0xC0) * 64 + (b1.val - 0x80)) (by omega)
        simp only [utf8Char, hc]
        rw [if_neg (by omega), if_pos (by omega), byte_val_eq b0 _ (by omega),
          byte_val_eq b1 _ (by omega)]
      · simp [hc1] at h
  by_cases h4 : b0.val < 0xF0
  · simp only [h1, h2, h3, h4, if_true, if_false] at h
    match rest, h with
    | [], h => simp at h
    | [_], h => simp at h
    | b1 :: b2 :: r2, h =>
      by_cases hc : (decide ((if b0.val = 0xE0 then 0xA0 else 0x80) ≤ b1.val
          ∧ b1.val ≤ (if b0.val = 0xED then 0x9F else 0xBF)) && isCont b2) = true
      · simp only [hc, if_true, Option.some.injEq, Prod.mk.injEq] at h
        obtain ⟨rfl, rfl⟩ := h
        simp only [isCont, Bool.and_eq_true, decide_eq_true_eq] at hc
        obtain ⟨⟨hlo, hhi⟩, hc2⟩ := hc
        refine ⟨[b1, b2], r2, rfl, rfl, ?_⟩
        have hb1 := b1.isLt
        have hval : (b0.val - 0xE0) * 4096 + (b1.val - 0x80) * 64 + (b2.val - 0x80) < 0xD800
            ∨ (0xDFFF < (b0.val - 0xE0) * 4096 + (b1.val - 0x80) * 64 + (b2.val - 0x80)
              ∧ (b0.val - 0xE0) * 4096 + (b1.val - 0x80) * 64 + (b2.val - 0x80) < 0x110000) := by
          split_ifs at hlo hhi <;> omega
        have hge : ¬ (b0.val - 0xE0) * 4096 + (b1.val - 0x80) * 64 + (b2.val - 0x80) < 0x800 := by
          split_ifs at hlo hhi <;> omega
        have hb1lo : 0x80 ≤ b1.val := by split_ifs at hlo <;> omega
        have hb1hi : b1.val ≤ 0xBF := by split_ifs at hhi <;> omega
        clear hlo hhi
        have hc := toNat_ofNat_valid _ hval
        simp only [utf8Char, hc]
        rw [if_neg (by omega), if_neg hge, if_pos (by omega), byte_val_eq b0 _ (by omega),
          byte_val_eq b1 _ (by omega), byte_val_eq b2 _ (by omega)]
      · dsimp only at h
        rw [if_neg hc] at h
        cases h
  by_cases h5 : b0.val < 0xF5
  · simp only [h1, h2, h3, h4, h5, if_true, if_false] at h
    match rest, h with
    | [], h => simp at h
    | [_], h => simp at h
    | [_, _], h => simp at h
    | b1 :: b2 :: b3 :: r3, h =>
      by_cases hc : (decide ((if b0.val = 0xF0 then 0x90 else 0x80) ≤ b1.val
          ∧ b1.val ≤ (if b0.val = 0xF4 then 0x8F else 0xBF)) && isCont b2 && isCont b3) = true
      · simp only [hc, if_true, Option.some.injEq, Prod.mk.injEq] at h
        obtain ⟨rfl, rfl⟩ := h
        simp only [isCont, Bool.and_eq_true, decide_eq_true_eq] at hc
        obtain ⟨⟨⟨hlo, hhi⟩, hc2⟩, hc3⟩ := hc
        refine ⟨[b1, b2, b3], r3, rfl, rfl, ?_⟩
        have hb1 := b1.isLt
        have hval : (b0.val - 0xF0) * 262144 + (b1.val - 0x80) * 4096 + (b2.val - 0x80) * 64
              + (b3.val - 0x80) < 0xD800
            ∨ (0xDFFF < (b0.val - 0xF0) * 262144 + (b1.val - 0x80) * 4096 + (b2.val - 0x80) * 64
                + (b3.val - 0x80)
              ∧ (b0.val - 0xF0) * 262144 + (b1.val - 0x80) * 4096 + (b2.val - 0x80) * 64
                + (b3.val - 0x80) < 0x110000) := by
          split_ifs at hlo hhi <;> omega
        have hge : ¬ (b0.val - 0xF0) * 262144 + (b1.val - 0x80) * 4096 + (b2.val - 0x80) * 64
              + (b3.val - 0x80) < 0x10000 := by
          split_ifs at hlo hhi <;> omega
        have hb1lo : 0x80 ≤ b1.val := by split_ifs at hlo <;> omega
        have hb1hi : b1.val ≤ 0xBF := by split_ifs at hhi <;> omega
        clear hlo hhi
        have hc := toNat_ofNat_valid _ hval
        simp only [utf8Char, hc]
        rw [if_neg (by omega), if_neg (by omega), if_neg hge, byte_val_eq b0 _ (by omega),
          byte_val_eq b1 _ (by omega), byte_val_eq b2 _ (by omega), byte_val_eq b3 _ (by omega)]
      · dsimp only at h
        rw [if_neg hc] at h
        cases h
  · simp [h1, h2, h3, h4, h5] at h

theorem runesSkip_skip (tail rest : ByteString) :
    runesSkip tail.length (tail ++ rest) = runesSkip 0 rest := by
  induction tail with
  | nil => rfl
  | cons b t ih => simpa [runesSkip] using ih

theorem utf8_coerced_aux (n : Nat) (s : ByteString) (hlen : s.length ≤ n)
    (h : ∀ r ∈ runes s, r ≠ none) : utf8 (coerced s) = s := by
  induction n generalizing s with
  | zero =>
    have : s = [] := List.length_eq_zero.mp (by omega)
    subst this; rfl
  | succ n ih =>
    cases s with
    | nil => rfl
    | cons b0 rest =>
      cases hd : decodeRune (b0 :: rest) with
      | none =>
        exfalso
        exact h none (by simp [runes, runesSkip, hd]) rfl
      | some p =>
        obtain ⟨c, size⟩ := p
        obtain ⟨tail, rest', rfl, hsize, hbytes⟩ := utf8Char_of_decodeRune b0 rest c size hd
        have hrun : runes (b0 :: (tail ++ rest')) = some c :: runes rest' := by
          have hs : size - 1 = tail.length := by omega
          simp only [runes, runesSkip, hd, hs, runesSkip_skip]
        have hrest : ∀ r ∈ runes rest', r ≠ none := by
          intro r hr
          exact h r (by rw [hrun]; exact List.mem_cons_of_mem _ hr)
        have hih := ih rest' (by simp at hlen; omega) hrest
        have hco : coerced (b0 :: (tail ++ rest')) = c :: coerced rest' := by
          simp [coerced, hrun]
        rw [hco, utf8, hbytes, hih]
        rfl

/-- A Go string is well-formed exactly when reading it meets no ill-formed byte,
which is what the library's `utf8.ValidString` checks. -/
theorem wellFormed_iff (s : ByteString) : WellFormed s ↔ ∀ r ∈ runes s, r ≠ none := by
  constructor
  · rintro ⟨t, rfl⟩
    rw [runes_utf8]
    simp
  · intro h
    exact ⟨coerced s, utf8_coerced_aux s.length s (le_refl _) h⟩

/-! ## The scanner on what `Marshal` writes -/

theorem hexVal_hexDigit (n : Nat) (h : n < 16) : hexVal (hexDigit n) = some n := by
  interval_cases n <;> decide

theorem lexRun_quoteChar (acc : GoString) (c : Char) (rest : List Char) :
    lexRun (.str acc none) (quoteChar c ++ rest) = lexRun (.str (acc ++ [c]) none) rest := by
  unfold quoteChar
  split_ifs with h1 h2 h3 h4 h5 h6 h7 h8
  · rcases h1 with rfl | rfl <;> simp [lexRun, lexStep, simpleEscape, flush]
  · subst h2; simp [lexRun, lexStep, simpleEscape, flush]
  · subst h3; simp [lexRun, lexStep, simpleEscape, flush]
  · subst h4; simp [lexRun, lexStep, simpleEscape, flush]
  · subst h5; simp [lexRun, lexStep, simpleEscape, flush]
  · subst h6; simp [lexRun, lexStep, simpleEscape, flush]
  · have hlt : c.toNat < 128 := by
      rcases h7 with h | rfl | rfl | rfl
      · omega
      all_goals decide
    have hd1 := hexVal_hexDigit (c.toNat / 16) (by omega)
    have hd2 := hexVal_hexDigit (c.toNat % 16) (Nat.mod_lt _ (by norm_num))
    have h0 : hexVal '0' = some 0 := by decide
    simp [lexRun, lexStep, simpleEscape, flush, hd1, hd2, h0, finishU]
    have hv : c.toNat / 16 * 16 + c.toNat % 16 = c.toNat := by omega
    rw [hv, if_neg (by omega), if_neg (by omega), Char.ofNat_toNat]
  · have h2028 : hexVal '2' = some 2 := by decide
    have h0 : hexVal '0' = some 0 := by decide
    rcases h8 with rfl | rfl
    · have h8 : hexVal (hexDigit 8) = some 8 := by decide
      simp [lexRun, lexStep, simpleEscape, flush, h2028, h0, h8, finishU]
    · have h9 : hexVal (hexDigit 9) = some 9 := by decide
      simp [lexRun, lexStep, simpleEscape, flush, h2028, h0, h9, finishU]
  · push_neg at h1 h7
    have h32 : ¬ c.toNat < 32 := by omega
    simp [lexRun, lexStep, flush, h1.1, h1.2, h32]

theorem lexRun_quoteBody (s : GoString) (acc : GoString) (rest : List Char) :
    lexRun (.str acc none) (quoteBody s ++ rest) = lexRun (.str (acc ++ s) none) rest := by
  induction s generalizing acc with
  | nil => simp [quoteBody]
  | cons c cs ih =>
    rw [quoteBody, List.append_assoc, lexRun_quoteChar, ih]
    simp

theorem lexRun_quote (s : GoString) (rest : List Char) :
    lexRun .top (quote s ++ rest) = (lexRun .top rest).map (Token.str s :: ·) := by
  unfold quote
  rw [List.cons_append, List.append_assoc, lexRun]
  have h : lexStep .top '"' = some (.str [] none, []) := by rfl
  rw [h]
  simp only [lexRun_quoteBody, List.nil_append, List.singleton_append]
  simp [lexRun, lexStep, flush]
  rfl

theorem lexRun_quoteRune (acc : GoString) (r : Option Char) (rest : List Char) :
    lexRun (.str acc none) (quoteRune r ++ rest)
      = lexRun (.str (acc ++ [r.getD replacementChar]) none) rest := by
  cases r with
  | some c => exact lexRun_quoteChar acc c rest
  | none =>
    have hf : hexVal 'f' = some 15 := by decide
    have hd : hexVal 'd' = some 13 := by decide
    simp [quoteRune, lexRun, lexStep, simpleEscape, flush, hf, hd, finishU, replacementChar]

theorem lexRun_quoteRunes (rs : List (Option Char)) (acc : GoString) (rest : List Char) :
    lexRun (.str acc none) (quoteRunes rs ++ rest)
      = lexRun (.str (acc ++ rs.map (fun r => r.getD replacementChar)) none) rest := by
  induction rs generalizing acc with
  | nil => simp [quoteRunes]
  | cons r rs ih =>
    rw [quoteRunes, List.append_assoc, lexRun_quoteRune, ih]
    simp

theorem lexRun_quoteBytes (s : ByteString) (rest : List Char) :
    lexRun .top (quoteBytes s ++ rest) = (lexRun .top rest).map (Token.str (coerced s) :: ·) := by
  unfold quoteBytes
  rw [List.cons_append, List.append_assoc, lexRun]
  have h : lexStep .top '"' = some (.str [] none, []) := by rfl
  rw [h]
  simp only [lexRun_quoteRunes, List.nil_append, List.singleton_append]
  simp [lexRun, lexStep, flush, coerced]
  rfl

theorem lexRun_colon (rest : List Char) :
    lexRun .top (':' :: rest) = (lexRun .top rest).map (Token.colon :: ·) := by
  rw [lexRun]
  have h : lexStep .top ':' = some (.top, [.colon]) := by rfl
  rw [h]; rfl

theorem lexRun_comma (rest : List Char) :
    lexRun .top (',' :: rest) = (lexRun .top rest).map (Token.comma :: ·) := by
  rw [lexRun]
  have h : lexStep .top ',' = some (.top, [.comma]) := by rfl
  rw [h]; rfl

theorem lexRun_lbrace (rest : List Char) :
    lexRun .top ('{' :: rest) = (lexRun .top rest).map (Token.lbrace :: ·) := by
  rw [lexRun]
  have h : lexStep .top '{' = some (.top, [.lbrace]) := by rfl
  rw [h]; rfl

theorem lexRun_rbrace (rest : List Char) :
    lexRun .top ('}' :: rest) = (lexRun .top rest).map (Token.rbrace :: ·) := by
  rw [lexRun]
  have h : lexStep .top '}' = some (.top, [.rbrace]) := by rfl
  rw [h]; rfl

theorem lexRun_member (e : GoString × GoString) (rest : List Char) :
    lexRun .top (quote e.1 ++ (':' :: quote e.2) ++ rest)
      = (lexRun .top rest).map ([Token.str e.1, .colon, .str e.2] ++ ·) := by
  rw [List.append_assoc, lexRun_quote, List.cons_append, lexRun_colon, lexRun_quote]
  simp [Option.map_map, Function.comp_def]

theorem lexRun_marshalEntries (es : List (GoString × GoString)) (rest : List Char) :
    lexRun .top (marshalEntries es ++ rest) = (lexRun .top rest).map (entryTokens es ++ ·) := by
  induction es with
  | nil => simp [marshalEntries, entryTokens]
  | cons e t ih =>
    cases t with
    | nil =>
      rw [marshalEntries, lexRun_member]
      rfl
    | cons e' t' =>
      rw [marshalEntries, List.append_assoc, lexRun_member, List.cons_append, lexRun_comma, ih]
      simp [Option.map_map, Function.comp_def, entryTokens]

theorem lex_object (es : List (GoString × GoString)) :
    lex ('{' :: (marshalEntries es ++ ['}']))
      = some (Token.lbrace :: (entryTokens es ++ [Token.rbrace])) := by
  unfold lex
  rw [lexRun_lbrace, lexRun_marshalEntries, lexRun_rbrace]
  simp [lexRun, lexEnd]

theorem parseRun_entries (es : List (GoString × GoString)) (e : GoString × GoString)
    (ms : List (GoString × JValue)) (p : Phase) (hp : p = .key ∨ p = .keyOrClose) :
    parseRun ⟨p, [.obj ms none]⟩ (entryTokens (e :: es) ++ [Token.rbrace])
      = some (.object (ms ++ memberValues (e :: es))) := by
  induction es generalizing e ms p with
  | nil =>
    rcases hp with rfl | rfl <;>
      simp [entryTokens, parseRun, parseStep, startKey, startValue, finishValue, closeFrame,
        memberValues]
  | cons e' t ih =>
    have h := ih e' (ms ++ [(e.1, JValue.string e.2)]) .key (Or.inl rfl)
    rcases hp with rfl | rfl <;>
      simp [entryTokens, parseRun, parseStep, startKey, startValue, finishValue, closeFrame,
        memberValues] at h ⊢ <;> exact h

theorem parseJSON_object (es : List (GoString × GoString)) :
    parseJSON ('{' :: (marshalEntries es ++ ['}'])) = some (.object (memberValues es)) := by
  unfold parseJSON
  rw [lex_object]
  cases es with
  | nil =>
    simp [entryTokens, parseRun, parseStep, startValue, closeFrame, finishValue, memberValues,
      maxNestingDepth]
  | cons e t =>
    have h := parseRun_entries t e [] .keyOrClose (Or.inr rfl)
    simp only [List.nil_append] at h
    simp only [parseRun, parseStep, startValue, List.length_nil, maxNestingDepth]
    simpa using h

/-! ## Storing what was read -/

theorem GoMap.ext_entries {a b : GoMap} (h : a.entries = b.entries) : a = b := by
  cases a; cases b; cases h; rfl

theorem setEntries_append (k v : GoString) (l : List (GoString × GoString))
    (h : ∀ x ∈ l.map Prod.fst, x < k) : setEntries k v l = l ++ [(k, v)] := by
  induction l with
  | nil => rfl
  | cons e t ih =>
    obtain ⟨k', v'⟩ := e
    have hk : k' < k := h k' (by simp)
    have ht : ∀ x ∈ t.map Prod.fst, x < k := fun x hx => h x (by simp at hx ⊢; exact Or.inr hx)
    rw [setEntries, if_neg (not_lt.mpr (le_of_lt hk)), if_neg (ne_of_gt hk), ih ht]
    rfl

theorem foldl_set_sorted (es pre : List (GoString × GoString)) (hs : KeysSorted pre)
    (h : KeysSorted (pre ++ es)) :
    (es.foldl (fun (m : GoMap) e => m.set e.1 e.2) ⟨pre, hs⟩).entries = pre ++ es := by
  induction es generalizing pre with
  | nil => simp
  | cons e t ih =>
    have hlt : ∀ x ∈ pre.map Prod.fst, x < e.1 := by
      intro x hx
      unfold KeysSorted at h
      rw [List.map_append, List.pairwise_append] at h
      exact h.2.2 x hx e.1 (by simp)
    have hpre : KeysSorted (pre ++ [e]) := by
      unfold KeysSorted at h ⊢
      have hsub : List.Sublist ((pre ++ [e]).map Prod.fst) ((pre ++ e :: t).map Prod.fst) := by
        apply List.Sublist.map
        exact List.Sublist.append_left (by simp) pre
      exact h.sublist hsub
    have hset : (⟨pre, hs⟩ : GoMap).set e.1 e.2 = ⟨pre ++ [e], hpre⟩ := by
      apply GoMap.ext_entries
      simp only [GoMap.set]
      exact setEntries_append e.1 e.2 pre hlt
    rw [List.foldl_cons, hset, ih (pre ++ [e]) hpre (by simpa using h)]
    simp

theorem foldl_storeMember_memberValues (es : List (GoString × GoString)) (m : GoMap) :
    (memberValues es).foldl storeMember (m, none)
      = (es.foldl (fun (m : GoMap) e => m.set e.1 e.2) m, none) := by
  induction es generalizing m with
  | nil => rfl
  | cons e t ih =>
    simp only [memberValues, List.map_cons, List.foldl_cons] at ih ⊢
    have h : storeMember (m, none) (e.1, JValue.string e.2) = (m.set e.1 e.2, none) := rfl
    rw [h]
    exact ih (m.set e.1 e.2)

/-- Reading back into any map what `Marshal` wrote for a map stores every entry
of the written map over the entries already there. -/
theorem UnmarshalMap_MarshalMap (m : GoMap) (target : Option GoMap) :
    UnmarshalMap (MarshalMap (some m)) target
      = (some (m.entries.foldl (fun (a : GoMap) e => a.set e.1 e.2) (target.getD GoMap.empty)),
          none) := by
  unfold UnmarshalMap MarshalMap
  rw [parseJSON_object]
  simp only [foldl_storeMember_memberValues]

theorem foldl_set_empty (m : GoMap) :
    m.entries.foldl (fun (a : GoMap) e => a.set e.1 e.2) GoMap.empty = m := by
  apply GoMap.ext_entries
  have h := foldl_set_sorted m.entries [] List.Pairwise.nil (by simpa using m.sorted)
  simpa [GoMap.empty] using h

theorem parseJSON_null : parseJSON ['n', 'u', 'l', 'l'] = some .null := by rfl

/-! ## The command codec -/

theorem lex_Set (key value : ByteString) :
    lex (KeyValueManager.Set key value)
      = lex ('{' :: (marshalEntries
          [(nameOp, OpSet), (nameKey, coerced key), (nameValue, coerced value)] ++ ['}'])) := by
  rw [lex_object]
  unfold lex KeyValueManager.Set MarshalSetCommand
  simp only [List.append_assoc, List.cons_append]
  rw [lexRun_lbrace, lexRun_quote, lexRun_colon, lexRun_quote, lexRun_comma, lexRun_quote,
    lexRun_colon, lexRun_quoteBytes, lexRun_comma, lexRun_quote, lexRun_colon, lexRun_quoteBytes,
    lexRun_rbrace]
  simp [lexRun, lexEnd, entryTokens]

theorem lex_Delete (key : ByteString) :
    lex (KeyValueManager.Delete key)
      = lex ('{' :: (marshalEntries [(nameOp, OpDelete), (nameKey, coerced key)] ++ ['}'])) := by
  rw [lex_object]
  unfold lex KeyValueManager.Delete MarshalDeleteCommand
  simp only [List.append_assoc, List.cons_append]
  rw [lexRun_lbrace, lexRun_quote, lexRun_colon, lexRun_quote, lexRun_comma, lexRun_quote,
    lexRun_colon, lexRun_quoteBytes, lexRun_rbrace]
  simp [lexRun, lexEnd, entryTokens]

theorem parseJSON_Set (key value : ByteString) :
    parseJSON (KeyValueManager.Set key value)
      = some (.object [(nameOp, .string OpSet), (nameKey, .string (coerced key)),
          (nameValue, .string (coerced value))]) := by
  have h := parseJSON_object [(nameOp, OpSet), (nameKey, coerced key), (nameValue, coerced value)]
  unfold parseJSON at h ⊢
  rw [lex_Set]
  exact h

theorem parseJSON_Delete (key : ByteString) :
    parseJSON (KeyValueManager.Delete key)
      = some (.object [(nameOp, .string OpDelete), (nameKey, .string (coerced key))]) := by
  have h := parseJSON_object [(nameOp, OpDelete), (nameKey, coerced key)]
  unfold parseJSON at h ⊢
  rw [lex_Delete]
  exact h

theorem fieldMatches_op_op : fieldMatches nameOp nameOp = true := by decide
theorem fieldMatches_op_key : fieldMatches nameOp nameKey = false := by decide
theorem fieldMatches_op_value : fieldMatches nameOp nameValue = false := by decide
theorem fieldMatches_key_key : fieldMatches nameKey nameKey = true := by decide
theorem fieldMatches_key_value : fieldMatches nameKey nameValue = false := by decide
theorem fieldMatches_value_value : fieldMatches nameValue nameValue = true := by decide

theorem Unmarshal_command_Set (key value : ByteString) :
    UnmarshalStruct command.store (KeyValueManager.Set key value) { Op := [] }
      = ({ Op := OpSet }, none) := by
  unfold UnmarshalStruct
  rw [parseJSON_Set]
  simp [command.store, storeString, saveError, fieldMatches_op_op, fieldMatches_op_key,
    fieldMatches_op_value]

theorem Unmarshal_SetCommand_Set (key value : ByteString) :
    UnmarshalStruct SetCommand.store (KeyValueManager.Set key value)
        { Op := [], Key := [], Value := [] }
      = ({ Op := OpSet, Key := coerced key, Value := coerced value }, none) := by
  unfold UnmarshalStruct
  rw [parseJSON_Set]
  simp [SetCommand.store, storeString, saveError, fieldMatches_op_op, fieldMatches_op_key,
    fieldMatches_op_value, fieldMatches_key_key, fieldMatches_key_value,
    fieldMatches_value_value]

theorem Unmarshal_command_Delete (key : ByteString) :
    UnmarshalStruct command.store (KeyValueManager.Delete key) { Op := [] }
      = ({ Op := OpDelete }, none) := by
  unfold UnmarshalStruct
  rw [parseJSON_Delete]
  simp [command.store, storeString, saveError, fieldMatches_op_op, fieldMatches_op_key]

theorem Unmarshal_DeleteCommand_Delete (key : ByteString) :
    UnmarshalStruct DeleteCommand.store (KeyValueManager.Delete key) { Op := [], Key := [] }
      = ({ Op := OpDelete, Key := coerced key }, none) := by
  unfold UnmarshalStruct
  rw [parseJSON_Delete]
  simp [DeleteCommand.store, storeString, saveError, fieldMatches_op_op, fieldMatches_op_key,
    fieldMatches_key_key]

theorem Apply_Set (m : GoMap) (key value : ByteString) :
    KeyValueManager.Apply ⟨some m⟩ (KeyValueManager.Set key value)
      = .returned ⟨some (m.set (coerced key) (coerced value))⟩ := by
  unfold KeyValueManager.Apply
  simp [Unmarshal_command_Set, Unmarshal_SetCommand_Set]

theorem Apply_Delete (m : GoMap) (key : ByteString) :
    KeyValueManager.Apply ⟨some m⟩ (KeyValueManager.Delete key)
      = .returned ⟨some (m.delete (coerced key))⟩ := by
  unfold KeyValueManager.Apply
  have h : OpDelete ≠ OpSet := by decide
  simp [Unmarshal_command_Delete, Unmarshal_DeleteCommand_Delete, h]

theorem saveError_none (e : Option JsonError) : saveError e none = e := by
  cases e <;> rfl

theorem saveError_some_ne_none (e : Option JsonError) (x : JsonError) :
    saveError e (some x) ≠ none := by
  cases e <;> simp [saveError]

theorem foldl_command_filter (ms : List (GoString × JValue)) (acc : command × Option JsonError) :
    ms.foldl (fun acc kv => let r := command.store acc.1 kv; (r.1, saveError acc.2 r.2)) acc
      = (ms.filter bearsOnOp).foldl
          (fun acc kv => let r := command.store acc.1 kv; (r.1, saveError acc.2 r.2)) acc := by
  induction ms generalizing acc with
  | nil => rfl
  | cons kv t ih =>
    by_cases h : bearsOnOp kv = true
    · simp only [List.filter_cons, h, if_true, List.foldl_cons]
      exact ih _
    · have h' : bearsOnOp kv = false := by simpa using h
      simp only [List.filter_cons, h', List.foldl_cons, Bool.false_eq_true, if_false]
      rw [← ih]
      congr 1
      obtain ⟨k, v⟩ := kv
      by_cases hk : fieldMatches nameOp k = true
      · cases v <;> simp_all [bearsOnOp, JValue.isNull, command.store, storeString, saveError_none]
      · simp [command.store, hk, saveError_none]

theorem Apply_fatal_of (manager : KeyValueManager) (data : List Char)
    (h : (UnmarshalStruct command.store data { Op := [] }).2 ≠ none
      ∨ ((UnmarshalStruct command.store data { Op := [] }).1.Op ≠ OpSet
        ∧ (UnmarshalStruct command.store data { Op := [] }).1.Op ≠ OpDelete)) :
    manager.Apply data = .fatal manager := by
  unfold KeyValueManager.Apply
  rcases h with h | ⟨h1, h2⟩
  · simp [h]
  · simp [h1, h2]

theorem Apply_fatal_of_syntax (manager : KeyValueManager) (data : List Char)
    (h : parseJSON data = none) : manager.Apply data = .fatal manager := by
  apply Apply_fatal_of
  left
  simp [UnmarshalStruct, h]

theorem Apply_fatal_of_no_tag (manager : KeyValueManager) (data : List Char) (v : JValue)
    (h : parseJSON data = some v) (ht : opTag v = none) : manager.Apply data = .fatal manager := by
  apply Apply_fatal_of
  cases v with
  | null => right; simp [UnmarshalStruct, h, OpSet, OpDelete]
  | bool b => left; simp [UnmarshalStruct, h]
  | number raw => left; simp [UnmarshalStruct, h]
  | string s => left; simp [UnmarshalStruct, h]
  | array items => left; simp [UnmarshalStruct, h]
  | object members =>
    right
    have hf : members.filter bearsOnOp = [] := by
      simp only [opTag, Option.map_eq_none'] at ht
      exact List.getLast?_eq_none_iff.mp ht
    simp only [UnmarshalStruct, h]
    rw [foldl_command_filter, hf]
    simp [OpSet, OpDelete]

theorem Apply_fatal_of_bad_tag (manager : KeyValueManager) (data : List Char) (v t : JValue)
    (h : parseJSON data = some v) (ht : opTag v = some t)
    (hset : t ≠ .string OpSet) (hdel : t ≠ .string OpDelete) :
    manager.Apply data = .fatal manager := by
  apply Apply_fatal_of
  cases v with
  | object members =>
    simp only [opTag, Option.map_eq_some'] at ht
    obtain ⟨⟨k, t'⟩, hlast, rfl⟩ := ht
    obtain ⟨init, hinit⟩ := List.getLast?_eq_some_iff.mp hlast
    have hb : bearsOnOp (k, t') = true := by
      have hmem : (k, t') ∈ members.filter bearsOnOp := by
        rw [hinit]; simp
      exact (List.mem_filter.mp hmem).2
    have hk : fieldMatches nameOp k = true := by
      simp only [bearsOnOp, Bool.and_eq_true] at hb
      exact hb.1
    simp only [UnmarshalStruct, h]
    rw [foldl_command_filter, hinit, List.foldl_append]
    simp only [List.foldl_cons, List.foldl_nil, command.store, hk, if_true]
    cases t' with
    | null => simp [bearsOnOp, JValue.isNull] at hb
    | string s =>
      by_cases he : (List.foldl
          (fun acc kv => let r := command.store acc.1 kv; (r.1, saveError acc.2 r.2))
          (({ Op := [] } : command), (none : Option JsonError)) init).2 = none
      · right
        simp only [storeString]
        exact ⟨fun hs => hset (by rw [hs]), fun hs => hdel (by rw [hs])⟩
      · left
        simpa [storeString, saveError_none] using he
    | bool b => left; simp [storeString, saveError_some_ne_none]
    | number raw => left; simp [storeString, saveError_some_ne_none]
    | array items => left; simp [storeString, saveError_some_ne_none]
    | object ms => left; simp [storeString, saveError_some_ne_none]
  | null => simp [opTag] at ht
  | bool b => simp [opTag] at ht
  | number raw => simp [opTag] at ht
  | string s => simp [opTag] at ht
  | array items => simp [opTag] at ht

theorem Apply_Set_nil (key value : ByteString) :
    KeyValueManager.Apply ⟨none⟩ (KeyValueManager.Set key value) = .panic ⟨none⟩ := by
  unfold KeyValueManager.Apply
  simp [Unmarshal_command_Set, Unmarshal_SetCommand_Set]

theorem Apply_Delete_nil (key : ByteString) :
    KeyValueManager.Apply ⟨none⟩ (KeyValueManager.Delete key) = .returned ⟨none⟩ := by
  unfold KeyValueManager.Apply
  have h : OpDelete ≠ OpSet := by decide
  simp [Unmarshal_command_Delete, Unmarshal_DeleteCommand_Delete, h]

/-! ## Map facts -/

theorem lookupBytes_setEntries (k v : GoString) (l : List (GoString × GoString)) :
    lookupBytes (utf8 k) (setEntries k v l) = some v := by
  induction l with
  | nil => simp [setEntries, lookupBytes]
  | cons e t ih =>
    obtain ⟨k', v'⟩ := e
    unfold setEntries
    split_ifs with h1 h2
    · simp [lookupBytes]
    · simp [lookupBytes]
    · have hne : utf8 k ≠ utf8 k' := fun h => h2 (utf8_injective h)
      simp [lookupBytes, hne, ih]

theorem GoMap.get_set (m : GoMap) (k v : GoString) : (m.set k v).get (utf8 k) = some v :=
  lookupBytes_setEntries k v m.entries

/-- A read error leaves the manager as it was. -/
theorem Restore_read_error (manager : KeyValueManager) :
    manager.Restore none = (manager, some .read) := rfl

/-- A syntax error leaves the manager as it was. -/
theorem Restore_syntax_error (manager : KeyValueManager) (bytes : List Char)
    (h : parseJSON bytes = none) :
    manager.Restore (some bytes) = (manager, some (.json .syntaxError)) := by
  simp [KeyValueManager.Restore, UnmarshalMap, h]

/-- Restoring the encoding of a map into a manager that holds a map writes the
entries of the encoded map over the ones already there. -/
theorem Restore_MarshalMap (m m' : GoMap) :
    KeyValueManager.Restore ⟨some m⟩ (some (MarshalMap (some m')))
      = (⟨some (m'.entries.foldl (fun (a : GoMap) e => a.set e.1 e.2) m)⟩, none) := by
  simp [KeyValueManager.Restore, UnmarshalMap_MarshalMap]

/-! ## JoinCluster -/

theorem joinLoop_count_le (env : JoinEnv) (fuel retries : Nat) :
    (joinLoop env fuel retries).1.count .joinRequest ≤ 11 - retries := by
  induction fuel generalizing retries with
  | zero => simp [joinLoop]
  | succ n ih =>
    have h := ih (retries + 1)
    by_cases h1 : retries ≤ 10
    · cases hc : env.getConfiguration retries with
      | none =>
        cases hj : env.joinLeaderNode retries
        · simp [joinLoop, h1, hc, hj]; omega
        · simp [joinLoop, h1, hc, hj]; omega
      | some servers =>
        by_cases hs : servers > 0
        · simp [joinLoop, h1, hc, hs]
        · cases hj : env.joinLeaderNode retries
          · simp [joinLoop, h1, hc, hj, hs]; omega
          · simp [joinLoop, h1, hc, hj, hs]; omega
    · simp [joinLoop, h1]

theorem joinLoop_finishes (env : JoinEnv) (fuel retries : Nat) (h : 12 ≤ fuel + retries)
    (hf : 0 < fuel) : (joinLoop env fuel retries).2 ≠ .unfinished := by
  induction fuel generalizing retries with
  | zero => omega
  | succ n ih =>
    by_cases h1 : retries ≤ 10
    · have h' := ih (retries + 1) (by omega) (by omega)
      cases hc : env.getConfiguration retries with
      | none =>
        cases hj : env.joinLeaderNode retries
        · simpa [joinLoop, h1, hc, hj] using h'
        · simp [joinLoop, h1, hc, hj]
      | some servers =>
        by_cases hs : servers > 0
        · simp [joinLoop, h1, hc, hs]
        · cases hj : env.joinLeaderNode retries
          · simpa [joinLoop, h1, hc, hj, hs] using h'
          · simp [joinLoop, h1, hc, hj, hs]
    · simp [joinLoop, h1]

/-- Whatever the surroundings answer, `JoinCluster` ends by returning or by the
fatal exit, and sends at most eleven join requests. -/
theorem JoinCluster_total (env : JoinEnv) :
    (JoinCluster env).1.count .joinRequest ≤ 11 ∧ (JoinCluster env).2 ≠ .unfinished :=
  ⟨joinLoop_count_le env 12 0, joinLoop_finishes env 12 0 (by omega) (by omega)⟩

/-! ## The claims -/

/-- C1. Snapshot round trip: for every manager, the bytes that `Persist` writes
for its snapshot into a new sink that accepts the write, fed to `Restore` on a
manager fresh from `NewKeyValueManager`, give no error and leave that manager
with the same map as the source. -/
theorem snapshot_restore_roundtrip (manager : KeyValueManager) (sink : SnapshotSink)
    (hnew : sink.written = []) (hwrite : sink.writeFails = false) :
    NewKeyValueManager.Restore (some (manager.Snapshot.Persist sink).1.written)
      = (manager, none) := by
  have hw : (manager.Snapshot.Persist sink).1.written = MarshalMap manager.values := by
    unfold KeyValueSnapshot.Persist KeyValueManager.Snapshot
    simp only [hwrite, hnew, Bool.false_eq_true, if_false, List.nil_append]
    split_ifs <;> rfl
  rw [hw]
  obtain ⟨values⟩ := manager
  cases values with
  | none =>
    simp [KeyValueManager.Restore, MarshalMap, UnmarshalMap, parseJSON_null]
  | some m =>
    simp [KeyValueManager.Restore, NewKeyValueManager, UnmarshalMap_MarshalMap, foldl_set_empty]

/-- C1 at a store with two entries, keys and values outside ASCII included. -/
theorem snapshot_restore_roundtrip_witness :
    NewKeyValueManager.Restore
        (some ((KeyValueManager.Snapshot ⟨some exampleStore⟩).Persist freshSink).1.written)
      = (⟨some exampleStore⟩, none) :=
  snapshot_restore_roundtrip ⟨some exampleStore⟩ freshSink rfl rfl

/-- C2, at the failing input: a manager holding `x = 1` restores the encoding
`{}` of the empty map; `Restore` returns no error and the key `x` is still
there, so the map afterwards is not the restored one. -/
theorem restore_keeps_stale_key :
    MarshalMap (some GoMap.empty) = ['{', '}']
      ∧ KeyValueManager.Restore ⟨some staleStore⟩ (some (MarshalMap (some GoMap.empty)))
          = (⟨some staleStore⟩, none)
      ∧ KeyValueManager.Get ⟨some staleStore⟩ (utf8 ['x']) = (['1'], true)
      ∧ KeyValueManager.Get ⟨some GoMap.empty⟩ (utf8 ['x']) = ([], false) := by
  decide

/-- C3, at the failing input: a manager holding `a = 0` restores
`{"a":"1","b":2}`; `Restore` returns a type error, and the map has been
written all the same: `a` is `1` and `b` is the empty string. -/
theorem restore_failure_writes_entries :
    KeyValueManager.Restore ⟨some oldStore⟩ (some mixedSnapshot)
        = (⟨some tornStore⟩, some (.json .typeError))
      ∧ tornStore ≠ oldStore := by
  decide

/-- The byte string `ff` is not well-formed UTF-8. -/
theorem illFormedKey_not_wellFormed : ¬ WellFormed illFormedKey := by
  rw [wellFormed_iff]
  exact fun h => h none (by decide) rfl

/-- The byte string `61 c3` is not well-formed UTF-8. -/
theorem illFormedValue_not_wellFormed : ¬ WellFormed illFormedValue := by
  rw [wellFormed_iff]
  exact fun h => h none (by decide) rfl

/-- C4 as stated fails: `Set` on the key `ff` and the value `61 c3`, neither of
them well-formed UTF-8, encodes an entry that `Apply` decodes to another key and
another value, the replacement character standing for each ill-formed byte; so
does `Delete` on the key `ff`. -/
theorem codec_rewrites_ill_formed_bytes :
    UnmarshalStruct SetCommand.store (KeyValueManager.Set illFormedKey illFormedValue)
          { Op := [], Key := [], Value := [] }
        = ({ Op := OpSet, Key := [replacementChar], Value := ['a', replacementChar] }, none)
      ∧ utf8 [replacementChar] ≠ illFormedKey
      ∧ utf8 ['a', replacementChar] ≠ illFormedValue
      ∧ UnmarshalStruct DeleteCommand.store (KeyValueManager.Delete illFormedKey)
          { Op := [], Key := [] }
        = ({ Op := OpDelete, Key := [replacementChar] }, none)
      ∧ KeyValueManager.Apply ⟨some GoMap.empty⟩ (KeyValueManager.Set illFormedKey illFormedValue)
        = .returned ⟨some rewrittenStore⟩ := by
  decide

/-- C4 as amended.  Codec round trip on well-formed strings: for every key and
value that are well-formed UTF-8, the bytes `Set` encodes decode, in the two
`Unmarshal` calls of `Apply`, to the operation `set` and to the set command
whose key and value have exactly the bytes of that key and that value, and
`Apply` stores that value under that key; the bytes `Delete` encodes decode to
the operation `delete` and to the delete command with exactly that key, and
`Apply` deletes that key. -/
theorem codec_roundtrip (key value : ByteString) (m : GoMap)
    (hkey : WellFormed key) (hvalue : WellFormed value) :
    UnmarshalStruct command.store (KeyValueManager.Set key value) { Op := [] }
        = ({ Op := OpSet }, none)
      ∧ (∃ k v, UnmarshalStruct SetCommand.store (KeyValueManager.Set key value)
            { Op := [], Key := [], Value := [] }
          = ({ Op := OpSet, Key := k, Value := v }, none)
        ∧ utf8 k = key ∧ utf8 v = value
        ∧ KeyValueManager.Apply ⟨some m⟩ (KeyValueManager.Set key value)
          = .returned ⟨some (m.set k v)⟩)
      ∧ UnmarshalStruct command.store (KeyValueManager.Delete key) { Op := [] }
        = ({ Op := OpDelete }, none)
      ∧ (∃ k, UnmarshalStruct DeleteCommand.store (KeyValueManager.Delete key)
            { Op := [], Key := [] }
          = ({ Op := OpDelete, Key := k }, none)
        ∧ utf8 k = key
        ∧ KeyValueManager.Apply ⟨some m⟩ (KeyValueManager.Delete key)
          = .returned ⟨some (m.delete k)⟩) := by
  obtain ⟨k, rfl⟩ := hkey
  obtain ⟨v, rfl⟩ := hvalue
  refine ⟨Unmarshal_command_Set _ _, ⟨k, v, ?_, rfl, rfl, ?_⟩, Unmarshal_command_Delete _,
    ⟨k, ?_, rfl, ?_⟩⟩
  · rw [Unmarshal_SetCommand_Set, coerced_utf8, coerced_utf8]
  · rw [Apply_Set, coerced_utf8, coerced_utf8]
  · rw [Unmarshal_DeleteCommand_Delete, coerced_utf8]
  · rw [Apply_Delete, coerced_utf8]

/-- C4 as amended, at a key outside ASCII and the empty value, on a store with
two entries. -/
theorem codec_roundtrip_witness :
    UnmarshalStruct command.store (KeyValueManager.Set (utf8 ['k', 'é']) (utf8 []))
          { Op := [] }
        = ({ Op := OpSet }, none)
      ∧ (∃ k v, UnmarshalStruct SetCommand.store (KeyValueManager.Set (utf8 ['k', 'é']) (utf8 []))
            { Op := [], Key := [], Value := [] }
          = ({ Op := OpSet, Key := k, Value := v }, none)
        ∧ utf8 k = utf8 ['k', 'é'] ∧ utf8 v = utf8 []
        ∧ KeyValueManager.Apply ⟨some exampleStore⟩
            (KeyValueManager.Set (utf8 ['k', 'é']) (utf8 []))
          = .returned ⟨some (exampleStore.set k v)⟩)
      ∧ UnmarshalStruct command.store (KeyValueManager.Delete (utf8 ['k', 'é'])) { Op := [] }
        = ({ Op := OpDelete }, none)
      ∧ (∃ k, UnmarshalStruct DeleteCommand.store (KeyValueManager.Delete (utf8 ['k', 'é']))
            { Op := [], Key := [] }
          = ({ Op := OpDelete, Key := k }, none)
        ∧ utf8 k = utf8 ['k', 'é']
        ∧ KeyValueManager.Apply ⟨some exampleStore⟩ (KeyValueManager.Delete (utf8 ['k', 'é']))
          = .returned ⟨some (exampleStore.delete k)⟩) :=
  codec_roundtrip (utf8 ['k', 'é']) (utf8 []) exampleStore ⟨['k', 'é'], rfl⟩ ⟨[], rfl⟩

/-- C5 as stated fails: the payload `{"OP":"set","key":"k","value":"v"}` is
valid JSON and none of its members is named `op`, yet `Apply` on the empty store
does not take the fatal branch: `Unmarshal` matches the key `OP` to the field
`Op`, and `Apply` returns with `k = v` stored. -/
theorem apply_accepts_upper_case_op :
    (∃ members, parseJSON upperCasePayload = some (.object members)
        ∧ nameOp ∉ members.map Prod.fst)
      ∧ KeyValueManager.Apply ⟨some GoMap.empty⟩ upperCasePayload = .returned ⟨some kvStore⟩
      ∧ kvStore ≠ GoMap.empty :=
  ⟨⟨_, rfl, by decide⟩, by decide, by decide⟩

/-- C5 as amended.  On every payload that is not valid JSON, or that carries no
operation tag, or whose operation tag is neither `"set"` nor `"delete"`, `Apply`
takes the fatal branch and the manager is as it was; the operation tag is
`opTag`, the value of the last member whose key selects the field `Op` as
`Unmarshal` matches keys, letter case ignored, and whose value is not `null`.  On
every payload that `Set` or `Delete` encodes `Apply` does not take the fatal
branch. -/
theorem apply_fatal_on_undecodable (manager : KeyValueManager) (data : List Char)
    (key value : ByteString)
    (h : parseJSON data = none
      ∨ (∃ v, parseJSON data = some v ∧ opTag v = none)
      ∨ (∃ v t, parseJSON data = some v ∧ opTag v = some t
          ∧ t ≠ .string OpSet ∧ t ≠ .string OpDelete)) :
    manager.Apply data = .fatal manager
      ∧ (∀ x, manager.Apply (KeyValueManager.Set key value) ≠ .fatal x)
      ∧ (∀ x, manager.Apply (KeyValueManager.Delete key) ≠ .fatal x) := by
  refine ⟨?_, ?_, ?_⟩
  · rcases h with h | ⟨v, h, ht⟩ | ⟨v, t, h, ht, h2, h3⟩
    · exact Apply_fatal_of_syntax manager data h
    · exact Apply_fatal_of_no_tag manager data v h ht
    · exact Apply_fatal_of_bad_tag manager data v t h ht h2 h3
  · intro x
    obtain ⟨values⟩ := manager
    cases values with
    | none => rw [Apply_Set_nil]; simp
    | some m => rw [Apply_Set]; simp
  · intro x
    obtain ⟨values⟩ := manager
    cases values with
    | none => rw [Apply_Delete_nil]; simp
    | some m => rw [Apply_Delete]; simp

/-- C5 as amended, at the payload `{"op":"sett"}` on a store with two
entries. -/
theorem apply_fatal_on_undecodable_witness :
    KeyValueManager.Apply ⟨some exampleStore⟩ unknownOpPayload = .fatal ⟨some exampleStore⟩
      ∧ (∀ x, KeyValueManager.Apply ⟨some exampleStore⟩
          (KeyValueManager.Set (utf8 ['k']) (utf8 ['v'])) ≠ .fatal x)
      ∧ (∀ x, KeyValueManager.Apply ⟨some exampleStore⟩ (KeyValueManager.Delete (utf8 ['k']))
          ≠ .fatal x) :=
  apply_fatal_on_undecodable ⟨some exampleStore⟩ unknownOpPayload (utf8 ['k']) (utf8 ['v'])
    (Or.inr (Or.inr ⟨.object [(nameOp, .string ['s', 'e', 't', 't'])],
      .string ['s', 'e', 't', 't'], rfl, rfl, by simp [OpSet], by simp [OpDelete]⟩))

/-- C6 as stated fails, for the key and for the value.  On the empty store the
entries of `Set(k, 1)` and `Set(k, 2)` for the key `ff`, which is not
well-formed UTF-8, are stored under the replacement character, and `Get(k)`
afterwards finds nothing.  And after the entries of `Set(k, 1)` and `Set(k, v2)`
for the key `k` and the value `61 c3`, which is not well-formed, `Get(k)` gives
`a` followed by the replacement character, whose bytes are not those of `v2`. -/
theorem upsert_fails_on_ill_formed_strings :
    KeyValueManager.Apply ⟨some GoMap.empty⟩ (KeyValueManager.Set illFormedKey (utf8 ['1']))
        = .returned ⟨some replacementOne⟩
      ∧ KeyValueManager.Apply ⟨some replacementOne⟩
          (KeyValueManager.Set illFormedKey (utf8 ['2']))
        = .returned ⟨some replacementTwo⟩
      ∧ KeyValueManager.Get ⟨some replacementTwo⟩ illFormedKey = ([], false)
      ∧ KeyValueManager.Apply ⟨some GoMap.empty⟩ (KeyValueManager.Set (utf8 ['k']) (utf8 ['1']))
        = .returned ⟨some kOneStore⟩
      ∧ KeyValueManager.Apply ⟨some kOneStore⟩ (KeyValueManager.Set (utf8 ['k']) illFormedValue)
        = .returned ⟨some kRewrittenStore⟩
      ∧ KeyValueManager.Get ⟨some kRewrittenStore⟩ (utf8 ['k']) = (['a', replacementChar], true)
      ∧ utf8 ['a', replacementChar] ≠ illFormedValue := by
  decide

/-- C6 as amended.  Upsert on well-formed strings: on every store, for every key
`k` and value `v2` that are well-formed UTF-8 and every value `v1`, applying the
entry of `Set(k, v1)` and then the entry of `Set(k, v2)` returns both times, and
`Get(k)` then gives `true` and the string with the bytes of `v2`. -/
theorem upsert_last_value_wins (m : GoMap) (k v1 v2 : ByteString)
    (hk : WellFormed k) (hv2 : WellFormed v2) :
    ∃ m1 m2 t, KeyValueManager.Apply ⟨some m⟩ (KeyValueManager.Set k v1) = .returned m1
      ∧ m1.Apply (KeyValueManager.Set k v2) = .returned m2
      ∧ m2.Get k = (t, true) ∧ utf8 t = v2 := by
  obtain ⟨kt, rfl⟩ := hk
  obtain ⟨vt, rfl⟩ := hv2
  refine ⟨⟨some (m.set kt (coerced v1))⟩, ⟨some ((m.set kt (coerced v1)).set kt vt)⟩, vt,
    ?_, ?_, ?_, rfl⟩
  · rw [Apply_Set, coerced_utf8]
  · rw [Apply_Set, coerced_utf8, coerced_utf8]
  · simp [KeyValueManager.Get, GoMap.get_set]

/-- C6 as amended, at a key outside ASCII, a first value that is not well-formed
and a second value outside ASCII, on a store with two entries. -/
theorem upsert_last_value_wins_witness :
    ∃ m1 m2 t, KeyValueManager.Apply ⟨some exampleStore⟩
          (KeyValueManager.Set (utf8 ['k', 'é']) illFormedValue) = .returned m1
      ∧ m1.Apply (KeyValueManager.Set (utf8 ['k', 'é']) (utf8 ['ü'])) = .returned m2
      ∧ m2.Get (utf8 ['k', 'é']) = (t, true) ∧ utf8 t = utf8 ['ü'] :=
  upsert_last_value_wins exampleStore (utf8 ['k', 'é']) illFormedValue (utf8 ['ü'])
    ⟨['k', 'é'], rfl⟩ ⟨['ü'], rfl⟩

/-- C8, at the failing input: when the local configuration stays empty and the
peer rejects every request, `JoinCluster` sends eleven join requests, sleeps
eleven times, and only then reaches the fatal exit. -/
theorem joinCluster_sends_eleven_requests :
    (JoinCluster rejectingEnv).1.count .joinRequest = 11
      ∧ (JoinCluster rejectingEnv).1.count .sleep = 11
      ∧ (JoinCluster rejectingEnv).2 = .fatal := by
  decide

/-- C9. Join idempotence: when the first `GetConfiguration` succeeds with at
least one server, `JoinCluster` returns at once: no join request, no sleep, no
fatal exit. -/
theorem join_is_idempotent (env : JoinEnv) (servers : Nat)
    (hcfg : env.getConfiguration 0 = some servers) (hpos : 0 < servers) :
    JoinCluster env = ([], .returned) := by
  simp [JoinCluster, joinLoop, hcfg, hpos]

/-- C9 at a configuration that lists one server. -/
theorem join_is_idempotent_witness : JoinCluster joinedEnv = ([], .returned) :=
  join_is_idempotent joinedEnv 1 rfl (by decide)

/-- C10. Configuration validation: on every decoded configuration `ParseConfig`
returns an error exactly when the name is empty, or the host is empty, or the
port is 0, or the raft port is 0, or bootstrap is set together with a join
address; the configuration it returns is the decoded one, and an accepted one
never has both bootstrap and a join address. -/
theorem parseConfig_validation (c : Config) :
    ((ParseConfig (.decoded c)).2 ≠ none
        ↔ (c.Name = [] ∨ c.Host = [] ∨ c.Port = 0 ∨ c.RaftPort = 0
            ∨ (c.Bootstrap = true ∧ c.JoinAddr ≠ [])))
      ∧ (ParseConfig (.decoded c)).1 = c
      ∧ ((ParseConfig (.decoded c)).2 = none → ¬ (c.Bootstrap = true ∧ c.JoinAddr ≠ [])) := by
  simp only [ParseConfig]
  split_ifs with h1 h2 h3 h4 h5 <;> simp_all

end Kvd
